import Mathlib

/-!
Shallow embedding of `src/main_wolfy.cc`: the wolves-and-sheep solution-table
derivation engine.  Conventions used throughout:
* C++ `int` values are modelled as `Nat` (every value reachable through the
  embedded operations is nonnegative);
* `unsigned long long` arithmetic is taken modulo `2 ^ 64`;
* a test row (a `std::string` over the alphabet '1' / '.') is modelled as a
  `List Bool` with `true` meaning "tested positive";
* the `std::map` solution table is modelled as an association list;
* a fatal `assert` is modelled by returning `none` (or a dedicated failure
  constructor) from the embedded operation.
-/

/-- Key of the solution table (C++ `struct ND`).  The C++ map orders keys by
`(d, n)`; nothing in the embedded operations depends on that order, so the
association-list model below does not encode it. -/
structure ND where
  n : Nat
  d : Nat
deriving DecidableEq

/-- C++ `struct Strategy`.  The lazily produced test matrix (a closure in the
source) is modelled as the materialized list of rows it would produce. -/
structure Strategy where
  tests : List (List Bool)
  t : Nat
  guaranteed_best : Bool
  belongs_in_file : Bool
deriving DecidableEq

/-- The `Strategy(std::vector<std::string>, GuaranteedBest, BelongsInFile)`
constructor: `t` is the number of rows. -/
def Strategy.ofTests (testvec : List (List Bool)) (gb bf : Bool) : Strategy :=
  { tests := testvec, t := testvec.length, guaranteed_best := gb, belongs_in_file := bf }

/-- `Strategy::isBetterThan`. -/
def Strategy.isBetterThan (a rhs : Strategy) : Bool :=
  if a.t ≠ rhs.t then decide (a.t < rhs.t)
  else if a.guaranteed_best ≠ rhs.guaranteed_best then a.guaranteed_best
  else false

/-- `empty_strategy()`. -/
def empty_strategy : Strategy :=
  Strategy.ofTests [] true false

/-- The loop body of `perfect_strategy_for_one_wolf`: rows for
`bit, 2*bit, 4*bit, ...` while `bit < n`; row for `bit` marks item `i`
positive iff `i & bit` is nonzero.  The source starts the loop at `bit = 1`;
the positivity guard on `bit` (always true at every real call) makes the
recursion terminate. -/
def one_wolf_rows (n : Nat) (bit : Nat) : List (List Bool) :=
  if h : 0 < bit ∧ bit < n then
    ((List.range n).map (fun i => decide (i &&& bit ≠ 0))) :: one_wolf_rows n (2 * bit)
  else []
termination_by n - bit
decreasing_by omega

/-- `perfect_strategy_for_one_wolf(n)`. -/
def perfect_strategy_for_one_wolf (n : Nat) : Strategy :=
  Strategy.ofTests (one_wolf_rows n 1) true false

/-- `worst_case_strategy(n, gb)`: `t = n - 1`, row `i` (for `i < n - 1`) tests
item `i` alone.  (The source stores `n - 1` in an `int`; for `n = 0` that
would be `-1`, which no call site reaches with a meaningful result.) -/
def worst_case_strategy (n : Nat) (gb : Bool) : Strategy :=
  { tests := (List.range (n - 1)).map (fun i => (List.range n).map (fun j => decide (j = i))),
    t := n - 1,
    guaranteed_best := gb,
    belongs_in_file := false }

/-- `test_last_animal_individually(n, orig)`: append a "not tested" column to
every row and one new row testing the new `(n+1)`-th item alone. -/
def test_last_animal_individually (n : Nat) (orig : Strategy) : Strategy :=
  { tests := orig.tests.map (fun row => row ++ [false]) ++ [List.replicate n false ++ [true]],
    t := orig.t + 1,
    guaranteed_best := false,
    belongs_in_file := false }

/-- The `counts` vector of `replace_most_tested_animal`: entry `i` is the
number of test rows that test item `i` positively. -/
def test_counts (tests : List (List Bool)) (n : Nat) : List Nat :=
  (List.range n).map (fun i => tests.countP (fun row => row.getD i false))

/-- `std::max_element(counts.begin(), counts.end()) - counts.begin()`: the
index of the first occurrence of the maximal element (`0` for the empty
list, matching the past-the-end iterator case only vacuously — the source
never calls it on an empty vector). -/
def max_element_idx (l : List Nat) : Nat :=
  (List.range l.length).foldl (fun best i => if l.getD best 0 < l.getD i 0 then i else best) 0

/-- `replace_most_tested_animal(orig, with_wolf)`.  The `assert(most_tested_count >= 2)`
is modelled by returning `none`.  `n` is `tests[0].size()` in the source
(undefined behaviour on an empty test list; modelled as `0`, which also
makes the assert fire). -/
def replace_most_tested_animal (orig : Strategy) (with_wolf : Bool) : Option Strategy :=
  let tests := orig.tests
  let n := (tests.headD []).length
  let counts := test_counts tests n
  let most_tested_idx := max_element_idx counts
  let most_tested_count := counts.getD most_tested_idx 0
  if most_tested_count < 2 then none
  else
    let tests2 := if with_wolf then tests.filter (fun row => !(row.getD most_tested_idx false)) else tests
    some { tests := tests2.map (fun row => row.eraseIdx most_tested_idx),
           t := tests2.length,
           guaranteed_best := false,
           belongs_in_file := false }

/-- The solution table `std::map<ND, std::shared_ptr<Strategy>>`, as an
association list (at most one entry per key in every reachable state). -/
abbrev Table := List (ND × Strategy)

/-- `m.find(k)` (first matching entry). -/
def table_find : Table → ND → Option Strategy
  | [], _ => none
  | p :: m, k => if p.1 = k then some p.2 else table_find m k

/-- `it->second = strategy`: replace the (first) entry for key `k`. -/
def table_set : Table → ND → Strategy → Table
  | [], _, _ => []
  | p :: m, k, s => if p.1 = k then (k, s) :: m else p :: table_set m k s

/-- `m.insert(std::make_pair(k, s))`: a no-op when the key is present. -/
def table_insert (m : Table) (k : ND) (s : Strategy) : Table :=
  match table_find m k with
  | some _ => m
  | none => m ++ [(k, s)]

/-- `overwrite_if_better(m, n, d, strategy)`.  `none` models a fatal assert:
either the precondition `0 <= d && d <= n` fails (the `0 <=` parts are
automatic for `Nat`), or a candidate strictly better than a
`guaranteed_best` entry was produced.  Otherwise the result is the updated
table plus whether a replacement took place. -/
def overwrite_if_better (m : Table) (n d : Nat) (strategy : Strategy) : Option (Table × Bool) :=
  if d ≤ n then
    match table_find m ⟨n, d⟩ with
    | none => some (m, false)
    | some e =>
      if strategy.isBetterThan e then
        if e.guaranteed_best then none
        else
          let s' := if e.belongs_in_file then { strategy with belongs_in_file := true } else strategy
          some (table_set m ⟨n, d⟩ s', true)
      else some (m, false)
  else none

/-- `preserve_from_file(m, n, d, strategy)`: seed a worst-case baseline if the
key is absent, then require `overwrite_if_better` to report an improvement
(`assert(overwritten)`); `none` models either fatal assert. -/
def preserve_from_file (m : Table) (n d : Nat) (strategy : Strategy) : Option Table :=
  let m1 := table_insert m ⟨n, d⟩ (worst_case_strategy n false)
  match overwrite_if_better m1 n d strategy with
  | none => none
  | some (_, false) => none
  | some (m2, true) => some m2

/-- A sequence of table updates, each through `overwrite_if_better`;
`none` as soon as one update asserts. -/
def apply_updates (m : Table) : List (Nat × Nat × Strategy) → Option Table
  | [] => some m
  | (n, d, s) :: us =>
    match overwrite_if_better m n d s with
    | none => none
    | some (m', _) => apply_updates m' us

/-- The strategy selected by `add_easy_solutions` for key `(n, d)`. -/
def easy_strategy (n d : Nat) : Strategy :=
  if d = 0 ∨ d = n then empty_strategy
  else if d = 1 then perfect_strategy_for_one_wolf n
  else if n / 2 ≤ d then worst_case_strategy n true
  else worst_case_strategy n false

/-- `add_easy_solutions(m, max_n)`: insert the closed-form strategy for every
`0 ≤ d ≤ n ≤ max_n` (an insert is a no-op on an already present key). -/
def add_easy_solutions (m : Table) (max_n : Nat) : Table :=
  (List.range (max_n + 1)).foldl
    (fun m n =>
      (List.range (n + 1)).foldl
        (fun m d => table_insert m ⟨n, d⟩ (easy_strategy n d)) m)
    m

/-- Rule 3 of `add_solutions_derived_from` (D-relaxation): the same tests and
test count reproposed for `(n, d-1)`, not guaranteed best, guarded by
`2 < d && d < n-1 && t < n-1`. -/
def rule3_relaxation (n d : Nat) (strategy : Strategy) : Option (ND × Strategy) :=
  if 2 < d ∧ d < n - 1 ∧ strategy.t < n - 1 then
    some (⟨n, d - 1⟩,
      { tests := strategy.tests, t := strategy.t, guaranteed_best := false, belongs_in_file := false })
  else none

/-- Outcome of one (fueled) run of the derivation cascade. -/
inductive DeriveResult
  | ok (m : Table)
  | assertFailed
  | outOfFuel
deriving DecidableEq

/-- Sequencing of derivation steps on the threaded table. -/
def DeriveResult.andThen (r : DeriveResult) (f : Table → DeriveResult) : DeriveResult :=
  match r with
  | .ok m => f m
  | r => r

/-- One candidate proposal: run `overwrite_if_better`; on improvement, look up
the newly installed entry and cascade (`recurse`) from it. -/
def propose (recurse : Table → ND → Strategy → DeriveResult)
    (m : Table) (k : ND) (cand : Strategy) : DeriveResult :=
  match overwrite_if_better m k.n k.d cand with
  | none => .assertFailed
  | some (m', true) =>
    match table_find m' k with
    | some s' => recurse m' k s'
    | none => .assertFailed
  | some (m', false) => .ok m'

/-- `add_solutions_derived_from(m, kv)` with an explicit fuel bound on the
recursion depth (the C++ source recurses without a bound; the termination
theorem below shows fuel `table_weight m + 1` always suffices).
The five rules run in source order, each on the table produced by the
previous one, and each recursive re-invocation happens only after
`overwrite_if_better` reported an improvement. -/
def add_solutions_derived_from : Nat → Table → ND → Strategy → DeriveResult
  | 0, _, _, _ => .outOfFuel
  | fuel + 1, m, nd, s =>
    let n := nd.n
    let d := nd.d
    let t := s.t
    (if 2 ≤ d ∧ d < n ∧ t < n - 1 then
        match replace_most_tested_animal s false with
        | none => DeriveResult.assertFailed
        | some cand => propose (add_solutions_derived_from fuel) m ⟨n - 1, d⟩ cand
      else .ok m).andThen fun m =>
    (if 2 ≤ d ∧ d < n ∧ t < n - 1 ∧ 2 ≤ d - 1 then
        match replace_most_tested_animal s true with
        | none => DeriveResult.assertFailed
        | some cand => propose (add_solutions_derived_from fuel) m ⟨n - 1, d - 1⟩ cand
      else .ok m).andThen fun m =>
    (match rule3_relaxation n d s with
      | some (k, cand) => propose (add_solutions_derived_from fuel) m k cand
      | none => .ok m).andThen fun m =>
    (if 2 ≤ d ∧ d < n ∧ t < n - 1 then
        propose (add_solutions_derived_from fuel) m ⟨n + 1, d⟩ (test_last_animal_individually n s)
      else .ok m).andThen fun m =>
    (if s.t + 1 = n then
        propose (add_solutions_derived_from fuel) m ⟨n + 2, d + 1⟩
          (worst_case_strategy (n + 2) s.guaranteed_best)
      else .ok m)

/-- Termination measure: twice the test count plus one slack unit for entries
not yet `guaranteed_best`; every successful replacement strictly decreases
the entry's weight. -/
def strategy_weight (s : Strategy) : Nat :=
  2 * s.t + (if s.guaranteed_best then 0 else 1)

/-- Total weight of a table. -/
def table_weight (m : Table) : Nat :=
  (m.map (fun p => strategy_weight p.2)).sum

/-! ## Persistence codec

The two on-disk formats of `Strategy::to_string`, `Strategy::to_emathgroup_string`
and `read_solutions_from_file`, modelled over `List Char`. -/

/-- Whitespace for `operator>>` extraction. -/
def isWsChar (c : Char) : Bool :=
  c = ' ' || c = '\n' || c = '\t' || c = '\r'

/-- Decimal digit test. -/
def isDigitChar (c : Char) : Bool :=
  '0' ≤ c && c ≤ '9'

/-- Lowercase hexadecimal digit test (the encoder emits lowercase). -/
def isHexDigitChar (c : Char) : Bool :=
  isDigitChar c || ('a' ≤ c && c ≤ 'f')

/-- Decimal digit to character. -/
def decDigitChar (v : Nat) : Char := Char.ofNat (48 + v)

/-- Hexadecimal digit to character (`std::hex` output is lowercase). -/
def hexDigitChar (v : Nat) : Char :=
  if v < 10 then Char.ofNat (48 + v) else Char.ofNat (87 + v)

/-- Character to decimal digit value. -/
def decDigitVal (c : Char) : Nat := c.toNat - 48

/-- Character to hexadecimal digit value. -/
def hexDigitVal (c : Char) : Nat :=
  if isDigitChar c then c.toNat - 48 else c.toNat - 87

/-- Least-significant-first base-`base` digits with explicit fuel (so that the
kernel can evaluate it); with fuel `≥ v` it agrees with `Nat.digits`. -/
def natDigitsRev (base : Nat) : Nat → Nat → List Nat
  | 0, _ => []
  | fuel + 1, v => if v = 0 then [] else (v % base) :: natDigitsRev base fuel (v / base)

/-- Decimal rendering of a natural number (`oss << v`). -/
def natToDecChars (v : Nat) : List Char :=
  if v = 0 then ['0'] else (natDigitsRev 10 v v).reverse.map decDigitChar

/-- Hexadecimal rendering (`Strategy::to_hex`, i.e. `oss << std::hex << v`). -/
def natToHexChars (v : Nat) : List Char :=
  if v = 0 then ['0'] else (natDigitsRev 16 v v).reverse.map hexDigitChar

/-- Value of a most-significant-first decimal digit string. -/
def parseDecDigits (cs : List Char) : Nat :=
  cs.foldl (fun a c => 10 * a + decDigitVal c) 0

/-- Value of a most-significant-first hexadecimal digit string. -/
def parseHexDigits (cs : List Char) : Nat :=
  cs.foldl (fun a c => 16 * a + hexDigitVal c) 0

/-- `sscanf` `%d` on an exactly-formatted input: a nonempty run of decimal
digits, returning the value and the rest.  (Values are modelled as exact
naturals; every value the encoder produces is a nonnegative `int`.) -/
def parseDecToken (cs : List Char) : Option (Nat × List Char) :=
  let ds := cs.takeWhile isDigitChar
  if ds = [] then none else some (parseDecDigits ds, cs.dropWhile isDigitChar)

/-- `sscanf` `%llx` on one extracted word: the longest hex-digit run is read
into an `unsigned long long`; out-of-range values saturate at
`2^64 - 1` (glibc `strtoull` behaviour; overflow here is outside the C
standard's guarantees). -/
def sscanf_llx (cs : List Char) : Option Nat :=
  let ds := cs.takeWhile isHexDigitChar
  if ds = [] then none else some (min (parseHexDigits ds) (2 ^ 64 - 1))

/-- Match a literal character sequence, returning the remainder. -/
def expectChars : List Char → List Char → Option (List Char)
  | cs, [] => some cs
  | c :: cs, l :: ls => if c = l then expectChars cs ls else none
  | [], _ :: _ => none

/-- The header line both formats share:
`N=<n> D=<d> T=<t> guaranteed_best=<0|1>`. -/
def header_chars (n d t : Nat) (gb : Bool) : List Char :=
  "N=".data ++ natToDecChars n ++ " D=".data ++ natToDecChars d ++ " T=".data ++ natToDecChars t
    ++ " guaranteed_best=".data ++ [if gb then '1' else '0']

/-- `sscanf(line, "N=%d D=%d T=%d guaranteed_best=%d", ...)`, modelled for
exactly-formatted header lines. -/
def parse_header (cs : List Char) : Option (Nat × Nat × Nat × Nat) := do
  let cs ← expectChars cs "N=".data
  let (n, cs) ← parseDecToken cs
  let cs ← expectChars cs " D=".data
  let (d, cs) ← parseDecToken cs
  let cs ← expectChars cs " T=".data
  let (t, cs) ← parseDecToken cs
  let cs ← expectChars cs " guaranteed_best=".data
  let (gb, _) ← parseDecToken cs
  some (n, d, t, gb)

/-- One plain-format row: '1' for a positive test, '.' otherwise. -/
def row_chars (row : List Bool) : List Char :=
  row.map (fun b => if b then '1' else '.')

/-- `Strategy::to_string(n, d)`: header line, then one line per test row. -/
def encode_plain_record (n d : Nat) (s : Strategy) : List Char :=
  header_chars n d s.t s.guaranteed_best ++ ['\n']
    ++ (s.tests.map (fun row => row_chars row ++ ['\n'])).flatten

/-- The packed bit column of item `c` across the `t` tests:
`bits = (bits << 1) | (tests[r][c] == '1')` for `r = t-1` down to `0`, in a
64-bit word (the shift-or appends one fresh low bit, i.e. `2 * bits + b`). -/
def column_bits (tests : List (List Bool)) (t c : Nat) : Nat :=
  ((List.range t).reverse).foldl
    (fun bits r => (2 * bits + (if (tests.getD r []).getD c false then 1 else 0)) % 2 ^ 64) 0

/-- The word-wrapping loop of `to_emathgroup_string`: each token is preceded
by a blank, or by a newline when the 75-column budget would overflow. -/
def wrap_tokens : Nat → List (List Char) → List Char
  | _, [] => []
  | wordwrap, tok :: toks =>
    if wordwrap + 1 + tok.length > 75 then ('\n' :: tok) ++ wrap_tokens tok.length toks
    else (' ' :: tok) ++ wrap_tokens (wordwrap + 1 + tok.length) toks

/-- `Strategy::to_emathgroup_string(n, d)`: header line, the literal marker
`emathgroup`, then one hex token per item, word-wrapped (the marker counts
10 columns), and a final newline. -/
def encode_emathgroup_record (n d : Nat) (s : Strategy) : List Char :=
  header_chars n d s.t s.guaranteed_best ++ ['\n'] ++ "emathgroup".data
    ++ wrap_tokens 10 ((List.range n).map (fun c => natToHexChars (column_bits s.tests s.t c)))
    ++ ['\n']

/-- Split into whitespace-separated words, as repeated `infile >> word` does. -/
def tokenize_core (cs : List Char) : List (List Char) :=
  cs.foldr
    (fun c toks =>
      if isWsChar c then [] :: toks
      else
        match toks with
        | [] => [[c]]
        | tok :: ts => (c :: tok) :: ts)
    []

/-- Nonempty whitespace-separated words of a character stream. -/
def tokenize (cs : List Char) : List (List Char) :=
  (tokenize_core cs).filter (fun tok => tok ≠ [])

/-- `std::getline`: the characters before the first newline, and the rest
after it. -/
def get_line (cs : List Char) : List Char × List Char :=
  (cs.takeWhile (fun c => c ≠ '\n'), (cs.dropWhile (fun c => c ≠ '\n')).drop 1)

/-- The per-item bit extraction loop: `t` times take the low bit and shift
(`bits & 1`, `bits >>= 1`). -/
def bits_to_col : Nat → Nat → List Bool
  | 0, _ => []
  | tt + 1, bits => decide (bits % 2 = 1) :: bits_to_col tt (bits / 2)

/-- Value of a least-significant-first bit column (specification vocabulary
for the packed encoding: the `r`-th entry contributes `2 ^ r`). -/
def boolsToNat : List Bool → Nat
  | [] => 0
  | b :: bs => (if b then 1 else 0) + 2 * boolsToNat bs

/-- The emathgroup item loop: parse each item's hex word, check
`bits < (1uLL << t)` (a 64-bit shift, modelled modulo `2^64`; for `t ≥ 64`
the C++ shift is undefined behaviour), and extract the column bits. -/
def decode_emathgroup_columns (t : Nat) : List (List Char) → Option (List (List Bool))
  | [] => some []
  | tok :: toks =>
    match sscanf_llx tok with
    | none => none
    | some bits =>
      if bits < (2 ^ t) % 2 ^ 64 then
        match decode_emathgroup_columns t toks with
        | some cols => some (bits_to_col t bits :: cols)
        | none => none
      else none

/-- `tests.resize(t)` followed by `tests[r].push_back(...)` per item: row `r`
collects bit `r` of every item's column. -/
def cols_to_tests (t : Nat) (cols : List (List Bool)) : List (List Bool) :=
  (List.range t).map (fun r => cols.map (fun col => col.getD r false))

/-- The plain-format row loop: `t` lines via `getline`, each asserted to have
exactly `n` characters; a character is a positive test iff it is '1'. -/
def read_plain_rows (n : Nat) : Nat → List Char → Option (List (List Bool))
  | 0, _ => some []
  | tt + 1, cs =>
    let (line, rest) := get_line cs
    if line.length = n then
      match read_plain_rows n tt rest with
      | some rows => some ((line.map (fun c => decide (c = '1'))) :: rows)
      | none => none
    else none

/-- One record of `read_solutions_from_file`: parse the header (`assert`s on
malformed lines are `none`); if the next character is 'e', expect the
`emathgroup` marker and `n` hex words, else read `t` plain rows.  The
resulting strategy is built by the vector constructor with
`BelongsInFile::Yes`. -/
def decode_record (input : List Char) : Option (Nat × Nat × Strategy) :=
  let (header, rest) := get_line input
  match parse_header header with
  | none => none
  | some (n, d, t, gb) =>
    match rest.head? with
    | some 'e' =>
      (match tokenize rest with
       | marker :: toks =>
         if marker = "emathgroup".data ∧ n ≤ toks.length then
           match decode_emathgroup_columns t (toks.take n) with
           | some cols => some (n, d, Strategy.ofTests (cols_to_tests t cols) (gb ≠ 0) true)
           | none => none
         else none
       | [] => none)
    | _ =>
      match read_plain_rows n t rest with
      | some rows => some (n, d, Strategy.ofTests rows (gb ≠ 0) true)
      | none => none

/-! ## Table lemmas -/

lemma table_find_set (m : Table) (k : ND) (v : Strategy) (k' : ND) :
    table_find (table_set m k v) k' =
      if k' = k then (table_find m k).map (fun _ => v) else table_find m k' := by
  induction m with
  | nil =>
    simp only [table_set, table_find]
    split <;> simp
  | cons p m ih =>
    simp only [table_set, table_find]
    by_cases hp : p.1 = k
    · by_cases hk : k' = k
      · subst hk
        simp [table_find, hp]
      · simp [table_find, hp, hk, Ne.symm hk]
    · by_cases hk : k' = k
      · subst hk
        simp [table_find, hp, ih]
      · by_cases hpk : p.1 = k'
        · simp [table_find, hp, hk, hpk]
        · simp [table_find, hp, hk, hpk, ih]

lemma table_weight_cons (p : ND × Strategy) (m : Table) :
    table_weight (p :: m) = strategy_weight p.2 + table_weight m := by
  simp [table_weight]

lemma table_weight_set (m : Table) (k : ND) (v e : Strategy)
    (he : table_find m k = some e) :
    table_weight (table_set m k v) + strategy_weight e = table_weight m + strategy_weight v := by
  induction m with
  | nil => simp [table_find] at he
  | cons p m ih =>
    simp only [table_find] at he
    simp only [table_set]
    by_cases hp : p.1 = k
    · simp only [hp, if_true] at he ⊢
      cases he
      simp [table_weight_cons]
      omega
    · simp only [hp, if_false] at he ⊢
      have := ih he
      simp [table_weight_cons]
      omega

lemma strategy_weight_set_bf (s : Strategy) (x : Bool) :
    strategy_weight { s with belongs_in_file := x } = strategy_weight s := rfl

lemma isBetterThan_t_le {a b : Strategy} (h : a.isBetterThan b = true) : a.t ≤ b.t := by
  unfold Strategy.isBetterThan at h
  split at h
  · exact le_of_lt (of_decide_eq_true h)
  · omega

lemma isBetterThan_weight_lt {a b : Strategy} (h : a.isBetterThan b = true)
    (hgb : b.guaranteed_best = false) : strategy_weight a < strategy_weight b := by
  have hbw : strategy_weight b = 2 * b.t + 1 := by simp [strategy_weight, hgb]
  have haw : strategy_weight a ≤ 2 * a.t + 1 := by
    unfold strategy_weight
    split <;> omega
  unfold Strategy.isBetterThan at h
  split at h
  · have hlt := of_decide_eq_true h
    omega
  · rename_i hne
    have ht : a.t = b.t := not_not.mp hne
    split at h
    · have haw2 : strategy_weight a = 2 * a.t := by simp [strategy_weight, h]
      omega
    · simp at h

lemma overwrite_some_false {m : Table} {n d : Nat} {s : Strategy} {m' : Table}
    (h : overwrite_if_better m n d s = some (m', false)) : m' = m := by
  unfold overwrite_if_better at h
  split at h
  · split at h
    · cases h
      rfl
    · split at h
      · split at h
        · cases h
        · cases h
      · cases h
        rfl
  · cases h

lemma overwrite_some_true {m : Table} {n d : Nat} {s : Strategy} {m' : Table}
    (h : overwrite_if_better m n d s = some (m', true)) :
    ∃ e, table_find m ⟨n, d⟩ = some e ∧ s.isBetterThan e = true ∧ e.guaranteed_best = false ∧
      m' = table_set m ⟨n, d⟩ (if e.belongs_in_file then { s with belongs_in_file := true } else s) := by
  unfold overwrite_if_better at h
  split at h
  · split at h
    · cases h
    · rename_i e he
      split at h
      · rename_i hb
        split at h
        · cases h
        · rename_i hgb
          cases h
          exact ⟨e, he, hb, by simpa using hgb, rfl⟩
      · cases h
  · cases h

lemma set_bf_t (s : Strategy) (c : Prop) [Decidable c] :
    (if c then { s with belongs_in_file := true } else s).t = s.t := by
  split <;> rfl

lemma set_bf_weight (s : Strategy) (c : Prop) [Decidable c] :
    strategy_weight (if c then { s with belongs_in_file := true } else s) = strategy_weight s := by
  split <;> rfl

lemma overwrite_true_weight {m : Table} {n d : Nat} {s : Strategy} {m' : Table}
    (h : overwrite_if_better m n d s = some (m', true)) :
    table_weight m' < table_weight m := by
  obtain ⟨e, he, hb, hgb, hm'⟩ := overwrite_some_true h
  subst hm'
  have hw := table_weight_set m ⟨n, d⟩
    (if e.belongs_in_file then { s with belongs_in_file := true } else s) e he
  have hlt := isBetterThan_weight_lt hb hgb
  rw [set_bf_weight] at hw
  omega

lemma overwrite_mono_step {m : Table} {n d : Nat} {s : Strategy} {m' : Table} {b : Bool}
    (h : overwrite_if_better m n d s = some (m', b)) (k : ND) (e' : Strategy)
    (h' : table_find m' k = some e') :
    ∃ e, table_find m k = some e ∧ e'.t ≤ e.t ∧ (e.guaranteed_best = true → e' = e) := by
  cases b with
  | false =>
    cases overwrite_some_false h
    exact ⟨e', h', le_refl _, fun _ => rfl⟩
  | true =>
    obtain ⟨e, he, hb, hgb, hm'⟩ := overwrite_some_true h
    subst hm'
    rw [table_find_set, he] at h'
    by_cases hk : k = (⟨n, d⟩ : ND)
    · rw [if_pos hk] at h'
      have hv : e' = (if e.belongs_in_file then { s with belongs_in_file := true } else s) := by
        simpa using h'.symm
      refine ⟨e, hk ▸ he, ?_, ?_⟩
      · rw [hv, set_bf_t]
        exact isBetterThan_t_le hb
      · intro hg
        rw [hgb] at hg
        cases hg
    · rw [if_neg hk] at h'
      exact ⟨e', h', le_refl _, fun _ => rfl⟩

lemma overwrite_domain {m : Table} {n d : Nat} {s : Strategy} {m' : Table} {b : Bool}
    (h : overwrite_if_better m n d s = some (m', b)) (k : ND) :
    table_find m' k = none ↔ table_find m k = none := by
  cases b with
  | false => cases overwrite_some_false h; rfl
  | true =>
    obtain ⟨e, he, _, _, hm'⟩ := overwrite_some_true h
    subst hm'
    rw [table_find_set, he]
    by_cases hk : k = (⟨n, d⟩ : ND)
    · rw [if_pos hk, hk, he]
      simp
    · rw [if_neg hk]

/-- C1.  `overwrite_if_better` leaves the table unchanged and reports no
improvement when no entry exists for `(n, d)`; when an entry `e` exists and
the update completes without asserting, it replaces `e` exactly when the
candidate is better under the dominance order (`isBetterThan`), and the
installed candidate carries the `belongs_in_file` (retain-in-store) flag
whenever the replaced entry carried it. -/
theorem overwrite_if_better_dominance (m : Table) (n d : Nat) (s : Strategy) (hdn : d ≤ n) :
    (table_find m ⟨n, d⟩ = none → overwrite_if_better m n d s = some (m, false)) ∧
    (∀ e, table_find m ⟨n, d⟩ = some e → ∀ m' b, overwrite_if_better m n d s = some (m', b) →
      b = s.isBetterThan e ∧ (b = false → m' = m) ∧
      (b = true →
        table_find m' ⟨n, d⟩ =
          some { s with belongs_in_file := s.belongs_in_file || e.belongs_in_file } ∧
        ∀ k, k ≠ (⟨n, d⟩ : ND) → table_find m' k = table_find m k)) := by
  constructor
  · intro hnone
    unfold overwrite_if_better
    rw [if_pos hdn, hnone]
  · intro e he m' b hov
    have hchar : overwrite_if_better m n d s =
        (if s.isBetterThan e then
          (if e.guaranteed_best then none else
            some (table_set m ⟨n, d⟩
              (if e.belongs_in_file then { s with belongs_in_file := true } else s), true))
         else some (m, false)) := by
      unfold overwrite_if_better
      rw [if_pos hdn, he]
    rw [hchar] at hov
    cases hb : s.isBetterThan e with
    | false =>
      rw [hb] at hov
      simp only [Bool.false_eq_true, if_false] at hov
      cases hov
      exact ⟨rfl, fun _ => rfl, by intro h; cases h⟩
    | true =>
      rw [hb] at hov
      simp only [if_true] at hov
      cases hgb : e.guaranteed_best with
      | true => rw [hgb] at hov; simp at hov
      | false =>
        rw [hgb] at hov
        simp only [Bool.false_eq_true, if_false, Option.some_inj] at hov
        cases hov
        refine ⟨rfl, ?_, ?_⟩
        · intro h
          cases h
        · intro _
          constructor
          · rw [table_find_set, if_pos rfl, he]
            cases hbf : e.belongs_in_file
            · simp
            · simp
          · intro k hk
            rw [table_find_set, if_neg hk]

/-- Witness for C1 at a concrete table: a one-entry table holding the
worst-case baseline for key `(3, 2)`. -/
theorem overwrite_if_better_dominance_witness :
    (2 : Nat) ≤ 3 ∧
    ((table_find [(⟨3, 2⟩, worst_case_strategy 3 false)] ⟨3, 2⟩ = none →
        overwrite_if_better [(⟨3, 2⟩, worst_case_strategy 3 false)] 3 2 empty_strategy =
          some ([(⟨3, 2⟩, worst_case_strategy 3 false)], false)) ∧
      (∀ e, table_find [(⟨3, 2⟩, worst_case_strategy 3 false)] ⟨3, 2⟩ = some e →
        ∀ m' b,
          overwrite_if_better [(⟨3, 2⟩, worst_case_strategy 3 false)] 3 2 empty_strategy =
            some (m', b) →
          b = empty_strategy.isBetterThan e ∧ (b = false → m' = [(⟨3, 2⟩, worst_case_strategy 3 false)]) ∧
          (b = true →
            table_find m' ⟨3, 2⟩ =
              some { empty_strategy with
                      belongs_in_file := empty_strategy.belongs_in_file || e.belongs_in_file } ∧
            ∀ k, k ≠ (⟨3, 2⟩ : ND) →
              table_find m' k = table_find [(⟨3, 2⟩, worst_case_strategy 3 false)] k))) :=
  ⟨by decide, overwrite_if_better_dominance [(⟨3, 2⟩, worst_case_strategy 3 false)] 3 2
    empty_strategy (by decide)⟩

/-- C2.  Dominance monotonicity: across any sequence of table updates that
completes without asserting, the stored test count of every key never
increases and a `guaranteed_best` entry is never replaced; and a single
update whose candidate is strictly better than an existing
`guaranteed_best` entry asserts (fatal), it never silently replaces. -/
theorem table_update_monotonicity :
    (∀ (us : List (Nat × Nat × Strategy)) (m m' : Table), apply_updates m us = some m' →
      ∀ k e', table_find m' k = some e' →
        ∃ e, table_find m k = some e ∧ e'.t ≤ e.t ∧ (e.guaranteed_best = true → e' = e)) ∧
    (∀ (m : Table) (n d : Nat) (s e : Strategy), table_find m ⟨n, d⟩ = some e →
      e.guaranteed_best = true → s.isBetterThan e = true →
      overwrite_if_better m n d s = none) := by
  constructor
  · intro us
    induction us with
    | nil =>
      intro m m' h k e' h'
      cases h
      exact ⟨e', h', le_refl _, fun _ => rfl⟩
    | cons u us ih =>
      intro m m' h k e' h'
      obtain ⟨n, d, s⟩ := u
      unfold apply_updates at h
      cases hov : overwrite_if_better m n d s with
      | none => rw [hov] at h; cases h
      | some p =>
        obtain ⟨m1, b⟩ := p
        rw [hov] at h
        obtain ⟨e1, he1, ht1, hgb1⟩ := ih m1 m' h k e' h'
        obtain ⟨e, he, ht, hgb⟩ := overwrite_mono_step hov k e1 he1
        refine ⟨e, he, le_trans ht1 ht, fun hg => ?_⟩
        have h1 := hgb hg
        subst h1
        exact hgb1 hg
  · intro m n d s e he hgb hb
    unfold overwrite_if_better
    by_cases hdn : d ≤ n
    · rw [if_pos hdn, he]
      simp only [hb, hgb, if_true]
    · rw [if_neg hdn]

/-- Witness for C2: one update with a strictly smaller test count on a
non-`guaranteed_best` baseline, and one asserting update against a
`guaranteed_best` entry. -/
theorem table_update_monotonicity_witness :
    (apply_updates [(⟨3, 2⟩, worst_case_strategy 3 false)]
        [(3, 2, Strategy.ofTests [[true, false, true]] false false)] =
      some [(⟨3, 2⟩, Strategy.ofTests [[true, false, true]] false false)]) ∧
    (table_find [(⟨3, 2⟩, Strategy.ofTests [[true, false, true]] false false)] ⟨3, 2⟩ =
      some (Strategy.ofTests [[true, false, true]] false false)) ∧
    (∃ e, table_find [(⟨3, 2⟩, worst_case_strategy 3 false)] ⟨3, 2⟩ = some e ∧
      (Strategy.ofTests [[true, false, true]] false false).t ≤ e.t ∧
      (e.guaranteed_best = true → Strategy.ofTests [[true, false, true]] false false = e)) ∧
    (table_find [(⟨4, 2⟩, worst_case_strategy 4 true)] ⟨4, 2⟩ = some (worst_case_strategy 4 true)) ∧
    ((worst_case_strategy 4 true).guaranteed_best = true) ∧
    ((Strategy.ofTests [[true, true, false, false]] false false).isBetterThan
        (worst_case_strategy 4 true) = true) ∧
    (overwrite_if_better [(⟨4, 2⟩, worst_case_strategy 4 true)] 4 2
        (Strategy.ofTests [[true, true, false, false]] false false) = none) :=
  ⟨by decide, by decide,
    table_update_monotonicity.1
      [(3, 2, Strategy.ofTests [[true, false, true]] false false)]
      [(⟨3, 2⟩, worst_case_strategy 3 false)]
      [(⟨3, 2⟩, Strategy.ofTests [[true, false, true]] false false)]
      (by decide) ⟨3, 2⟩ (Strategy.ofTests [[true, false, true]] false false) (by decide),
    by decide, by decide, by decide,
    table_update_monotonicity.2 [(⟨4, 2⟩, worst_case_strategy 4 true)] 4 2
      (Strategy.ofTests [[true, true, false, false]] false false)
      (worst_case_strategy 4 true) (by decide) (by decide) (by decide)⟩

/-- C10.  `preserve_from_file` seeds a worst-case baseline for an absent key
and then demands a strict improvement: if the loaded strategy is not better
(under the dominance order) than the entry present after seeding —
for example, a loaded record identical to a pre-seeded base case — the
operation asserts fatally (`assert(overwritten)`), modelled as `none`. -/
theorem preserve_from_file_requires_improvement (m : Table) (n d : Nat) (s e : Strategy)
    (he : table_find (table_insert m ⟨n, d⟩ (worst_case_strategy n false)) ⟨n, d⟩ = some e)
    (hnb : s.isBetterThan e = false) :
    preserve_from_file m n d s = none := by
  unfold preserve_from_file overwrite_if_better
  by_cases hdn : d ≤ n
  · simp only [if_pos hdn, he, hnb, Bool.false_eq_true, if_false]
  · simp only [if_neg hdn]

/-- Witness for C10: loading a record identical to the worst-case baseline
for key `(4, 2)` into an empty table aborts. -/
theorem preserve_from_file_requires_improvement_witness :
    (table_find (table_insert [] ⟨4, 2⟩ (worst_case_strategy 4 false)) ⟨4, 2⟩ =
      some (worst_case_strategy 4 false)) ∧
    ((Strategy.ofTests
        [[true, false, false, false], [false, true, false, false], [false, false, true, false]]
        false true).isBetterThan (worst_case_strategy 4 false) = false) ∧
    preserve_from_file [] 4 2
      (Strategy.ofTests
        [[true, false, false, false], [false, true, false, false], [false, false, true, false]]
        false true) = none :=
  ⟨by decide, by decide,
    preserve_from_file_requires_improvement [] 4 2
      (Strategy.ofTests
        [[true, false, false, false], [false, true, false, false], [false, false, true, false]]
        false true)
      (worst_case_strategy 4 false) (by decide) (by decide)⟩

/-- A cascade outcome is good for start table `m`: it did not run out of fuel,
and on normal completion the table weight has not increased and no key
appeared or disappeared. -/
def derive_good (r : DeriveResult) (m : Table) : Prop :=
  r ≠ DeriveResult.outOfFuel ∧
  ∀ m', r = DeriveResult.ok m' →
    table_weight m' ≤ table_weight m ∧
    ∀ j, table_find m' j = none ↔ table_find m j = none

lemma derive_good_ok (m : Table) : derive_good (DeriveResult.ok m) m := by
  refine ⟨by simp, ?_⟩
  intro m' h
  cases h
  exact ⟨le_refl _, fun _ => Iff.rfl⟩

lemma derive_good_assert (m : Table) : derive_good DeriveResult.assertFailed m := by
  refine ⟨by simp, ?_⟩
  intro m' h
  cases h

lemma derive_good_if (c : Prop) [Decidable c] (r : DeriveResult) (m : Table)
    (h : c → derive_good r m) :
    derive_good (if c then r else DeriveResult.ok m) m := by
  split
  · exact h (by assumption)
  · exact derive_good_ok m

lemma derive_good_andThen {r : DeriveResult} {f : Table → DeriveResult} {m : Table}
    (hr : derive_good r m)
    (hf : ∀ m1, table_weight m1 ≤ table_weight m →
      (∀ j, table_find m1 j = none ↔ table_find m j = none) → derive_good (f m1) m1) :
    derive_good (r.andThen f) m := by
  cases r with
  | ok m1 =>
    obtain ⟨hw1, hdom1⟩ := hr.2 m1 rfl
    obtain ⟨hnf, hok⟩ := hf m1 hw1 hdom1
    refine ⟨hnf, ?_⟩
    intro m' h
    obtain ⟨hw', hdom'⟩ := hok m' h
    exact ⟨le_trans hw' hw1, fun j => (hdom' j).trans (hdom1 j)⟩
  | assertFailed => exact derive_good_assert m
  | outOfFuel => exact absurd rfl hr.1

lemma propose_good (fuel : Nat) (m : Table) (k : ND) (cand : Strategy)
    (hw : table_weight m ≤ fuel)
    (IH : ∀ m1 nd s, table_weight m1 < fuel →
      derive_good (add_solutions_derived_from fuel m1 nd s) m1) :
    derive_good (propose (add_solutions_derived_from fuel) m k cand) m := by
  unfold propose
  split
  · exact derive_good_assert m
  · rename_i m1 hov
    have hlt := overwrite_true_weight hov
    split
    · rename_i s' hfind
      have hIH := IH m1 k s' (lt_of_lt_of_le hlt hw)
      refine ⟨hIH.1, ?_⟩
      intro m' h
      obtain ⟨hw', hdom'⟩ := hIH.2 m' h
      exact ⟨le_trans hw' (le_of_lt hlt),
        fun j => (hdom' j).trans (overwrite_domain hov j)⟩
    · exact derive_good_assert m
  · rename_i m1 hov
    cases overwrite_some_false hov
    exact derive_good_ok m

lemma derivation_good :
    ∀ (fuel : Nat) (m : Table) (nd : ND) (s : Strategy), table_weight m < fuel →
      derive_good (add_solutions_derived_from fuel m nd s) m := by
  intro fuel
  induction fuel with
  | zero =>
    intro m nd s hw
    exact absurd hw (Nat.not_lt_zero _)
  | succ fuel ih =>
    intro m nd s hw
    have hle : table_weight m ≤ fuel := Nat.lt_succ_iff.mp hw
    simp only [add_solutions_derived_from]
    apply derive_good_andThen
    · apply derive_good_if
      intro _
      split
      · exact derive_good_assert m
      · exact propose_good fuel m _ _ hle ih
    · intro m1 hw1 _
      apply derive_good_andThen
      · apply derive_good_if
        intro _
        split
        · exact derive_good_assert m1
        · exact propose_good fuel m1 _ _ (le_trans hw1 hle) ih
      · intro m2 hw2 _
        apply derive_good_andThen
        · split
          · exact propose_good fuel m2 _ _ (le_trans (le_trans hw2 hw1) hle) ih
          · exact derive_good_ok m2
        · intro m3 hw3 _
          apply derive_good_andThen
          · apply derive_good_if
            intro _
            exact propose_good fuel m3 _ _ (le_trans (le_trans hw3 (le_trans hw2 hw1)) hle) ih
          · intro m4 hw4 _
            apply derive_good_if
            intro _
            exact propose_good fuel m4 _ _
              (le_trans (le_trans hw4 (le_trans hw3 (le_trans hw2 hw1))) hle) ih

/-- C9.  The recursive derivation cascade terminates: with any fuel exceeding
the table's weight, `add_solutions_derived_from` never runs out of fuel
(each recursive re-invocation fires only after a strict table improvement,
which strictly decreases the finite table weight), and on normal completion
the table weight has not increased and no key was added or removed (updates
at keys outside the pre-seeded range are rejected). -/
theorem derivation_cascade_terminates (fuel : Nat) (m : Table) (nd : ND) (s : Strategy)
    (hw : table_weight m < fuel) :
    add_solutions_derived_from fuel m nd s ≠ DeriveResult.outOfFuel ∧
    (∀ m', add_solutions_derived_from fuel m nd s = DeriveResult.ok m' →
      table_weight m' ≤ table_weight m ∧
      ∀ k, table_find m' k = none ↔ table_find m k = none) := by
  have h := derivation_good fuel m nd s hw
  exact ⟨h.1, h.2⟩

/-- Witness for C9: starting the cascade from a small pre-seeded table with a
strategy that fires rule 5. -/
theorem derivation_cascade_terminates_witness :
    (table_weight [(⟨4, 2⟩, worst_case_strategy 4 false), (⟨6, 3⟩, worst_case_strategy 6 true)]
        < 100) ∧
    (add_solutions_derived_from 100
        [(⟨4, 2⟩, worst_case_strategy 4 false), (⟨6, 3⟩, worst_case_strategy 6 true)]
        ⟨4, 2⟩ (worst_case_strategy 4 false) ≠ DeriveResult.outOfFuel) :=
  ⟨by decide,
    (derivation_cascade_terminates 100
      [(⟨4, 2⟩, worst_case_strategy 4 false), (⟨6, 3⟩, worst_case_strategy 6 true)]
      ⟨4, 2⟩ (worst_case_strategy 4 false) (by decide)).1⟩

/-- C6 counterexample.  With `n = 5`, `d = 3` and the worst-case strategy
(`T = 4 = N - 1`), the guard `2 < D < N - 1` claimed by the spec holds, yet
rule 3 proposes nothing: the source additionally requires `T < N - 1`. -/
theorem rule3_fires_counterexample :
    2 < 3 ∧ 3 < 5 - 1 ∧ rule3_relaxation 5 3 (worst_case_strategy 5 true) = none := by
  decide

/-- C6 (amended).  Rule 3 (D-relaxation) proposes the current strategy
unchanged — same tests, same test count, not guaranteed best — for key
`(N, D-1)` whenever `2 < D < N - 1` **and** `T < N - 1`. -/
theorem rule3_relaxation_amended (n d : Nat) (s : Strategy)
    (h2 : 2 < d) (hdn : d < n - 1) (ht : s.t < n - 1) :
    rule3_relaxation n d s =
      some (⟨n, d - 1⟩,
        { tests := s.tests, t := s.t, guaranteed_best := false, belongs_in_file := false }) := by
  unfold rule3_relaxation
  rw [if_pos ⟨h2, hdn, ht⟩]

/-- Witness for C6 (amended) at `n = 6`, `d = 3`, `T = 2`. -/
theorem rule3_relaxation_amended_witness :
    2 < 3 ∧ 3 < 6 - 1 ∧ (Strategy.ofTests [[true, false, true, false, true, false],
        [false, true, true, false, false, true]] false false).t < 6 - 1 ∧
    rule3_relaxation 6 3 (Strategy.ofTests [[true, false, true, false, true, false],
        [false, true, true, false, false, true]] false false) =
      some (⟨6, 2⟩,
        { tests := [[true, false, true, false, true, false],
            [false, true, true, false, false, true]],
          t := 2, guaranteed_best := false, belongs_in_file := false }) :=
  ⟨by decide, by decide, by decide,
    rule3_relaxation_amended 6 3
      (Strategy.ofTests [[true, false, true, false, true, false],
        [false, true, true, false, false, true]] false false)
      (by decide) (by decide) (by decide)⟩

/-! ## The most-tested-item selection -/

lemma getD_map_range {α : Type} (f : Nat → α) (a : α) (n j : Nat) (h : j < n) :
    ((List.range n).map f).getD j a = f j := by
  simp [List.getD_eq_getElem?_getD, List.getElem?_range h]

lemma test_counts_getD (tests : List (List Bool)) (n j : Nat) (h : j < n) :
    (test_counts tests n).getD j 0 = tests.countP (fun row => row.getD j false) := by
  unfold test_counts
  exact getD_map_range _ _ _ _ h

lemma max_fold_inv (l : List Nat) (k : Nat) :
    ((List.range (k + 1)).foldl (fun best i => if l.getD best 0 < l.getD i 0 then i else best) 0 ≤ k)
    ∧ (∀ j, j ≤ k → l.getD j 0 ≤
        l.getD ((List.range (k + 1)).foldl
          (fun best i => if l.getD best 0 < l.getD i 0 then i else best) 0) 0)
    ∧ (∀ j, j < (List.range (k + 1)).foldl
          (fun best i => if l.getD best 0 < l.getD i 0 then i else best) 0 →
        l.getD j 0 <
        l.getD ((List.range (k + 1)).foldl
          (fun best i => if l.getD best 0 < l.getD i 0 then i else best) 0) 0) := by
  induction k with
  | zero =>
    have h0 : (List.range 1).foldl
        (fun best i => if l.getD best 0 < l.getD i 0 then i else best) 0 = 0 := by
      have hr1 : List.range 1 = [0] := by decide
      rw [hr1, List.foldl_cons, List.foldl_nil, ite_self]
    rw [h0]
    refine ⟨le_refl 0, ?_, ?_⟩
    · intro j hj
      have : j = 0 := Nat.le_zero.mp hj
      subst this
      exact le_refl _
    · intro j hj
      exact absurd hj (Nat.not_lt_zero j)
  | succ k ih =>
    obtain ⟨hb, hmax, hstrict⟩ := ih
    have hsplit : (List.range (k + 1 + 1)).foldl
        (fun best i => if l.getD best 0 < l.getD i 0 then i else best) 0
        = (if l.getD ((List.range (k + 1)).foldl
              (fun best i => if l.getD best 0 < l.getD i 0 then i else best) 0) 0 <
              l.getD (k + 1) 0
           then k + 1
           else (List.range (k + 1)).foldl
              (fun best i => if l.getD best 0 < l.getD i 0 then i else best) 0) := by
      rw [List.range_succ, List.foldl_append, List.foldl_cons, List.foldl_nil]
    rw [hsplit]
    set b := (List.range (k + 1)).foldl
      (fun best i => if l.getD best 0 < l.getD i 0 then i else best) 0 with hbdef
    by_cases hlt : l.getD b 0 < l.getD (k + 1) 0
    · rw [if_pos hlt]
      refine ⟨le_refl _, ?_, ?_⟩
      · intro j hj
        by_cases hjk : j ≤ k
        · exact le_of_lt (lt_of_le_of_lt (hmax j hjk) hlt)
        · have : j = k + 1 := by omega
          subst this
          exact le_refl _
      · intro j hj
        have hjk : j ≤ k := by omega
        exact lt_of_le_of_lt (hmax j hjk) hlt
    · rw [if_neg hlt]
      refine ⟨le_trans hb (Nat.le_succ k), ?_, hstrict⟩
      intro j hj
      by_cases hjk : j ≤ k
      · exact hmax j hjk
      · have : j = k + 1 := by omega
        subst this
        exact Nat.le_of_not_lt hlt

lemma max_element_idx_spec (l : List Nat) (hl : l ≠ []) :
    max_element_idx l < l.length ∧
    (∀ j, j < l.length → l.getD j 0 ≤ l.getD (max_element_idx l) 0) ∧
    (∀ j, j < max_element_idx l → l.getD j 0 < l.getD (max_element_idx l) 0) := by
  have hlen : l.length = (l.length - 1) + 1 := by
    cases l with
    | nil => exact absurd rfl hl
    | cons a t => simp
  have h := max_fold_inv l (l.length - 1)
  unfold max_element_idx
  rw [hlen]
  obtain ⟨h1, h2, h3⟩ := h
  refine ⟨Nat.lt_succ_of_le h1, ?_, h3⟩
  intro j hj
  exact h2 j (Nat.lt_succ_iff.mp hj)

lemma headD_length {tests : List (List Bool)} {n : Nat} (hne : tests ≠ [])
    (hrows : ∀ row ∈ tests, row.length = n) : (tests.headD []).length = n := by
  cases tests with
  | nil => exact absurd rfl hne
  | cons a l => exact hrows a (List.mem_cons_self a l)

lemma test_counts_ne_nil (tests : List (List Bool)) {n : Nat} (hn : 0 < n) :
    test_counts tests n ≠ [] := by
  unfold test_counts
  intro h
  have := congrArg List.length h
  simp at this
  omega

/-- C4.  When rule 2 applies (`2 ≤ D < N`, `T < N-1`, `D-1 ≥ 2`) to a
well-formed strategy whose most-tested count passes the assert, the
candidate proposed for `(N-1, D-1)` selects the lowest index with maximal
positive-test count, keeps exactly the rows not positive for it with that
column cut out, has test count `T` minus the number of dropped rows, and is
not guaranteed best. -/
theorem replace_most_tested_wolf_spec (orig : Strategy) (n d : Nat)
    (hne : orig.tests ≠ []) (hrows : ∀ row ∈ orig.tests, row.length = n)
    (ht : orig.t = orig.tests.length)
    (hd2 : 2 ≤ d) (hdn : d < n) (htn : orig.t < n - 1) (hd1 : 2 ≤ d - 1)
    (hcount : 2 ≤ (test_counts orig.tests n).getD
      (max_element_idx (test_counts orig.tests n)) 0) :
    max_element_idx (test_counts orig.tests n) < n ∧
    (∀ j, j < n → orig.tests.countP (fun row => row.getD j false) ≤
      orig.tests.countP (fun row => row.getD (max_element_idx (test_counts orig.tests n)) false)) ∧
    (∀ j, j < max_element_idx (test_counts orig.tests n) →
      orig.tests.countP (fun row => row.getD j false) <
      orig.tests.countP (fun row => row.getD (max_element_idx (test_counts orig.tests n)) false)) ∧
    replace_most_tested_animal orig true =
      some { tests := (orig.tests.filter
                (fun row => !(row.getD (max_element_idx (test_counts orig.tests n)) false))).map
                (fun row => row.take (max_element_idx (test_counts orig.tests n)) ++
                  row.drop (max_element_idx (test_counts orig.tests n) + 1)),
             t := orig.t - orig.tests.countP
                (fun row => row.getD (max_element_idx (test_counts orig.tests n)) false),
             guaranteed_best := false,
             belongs_in_file := false } := by
  have hn0 : 0 < n := by omega
  have hn : (orig.tests.headD []).length = n := headD_length hne hrows
  have hclen : (test_counts orig.tests n).length = n := by
    unfold test_counts
    simp
  obtain ⟨hidx, hmax, hstrict⟩ :=
    max_element_idx_spec (test_counts orig.tests n) (test_counts_ne_nil orig.tests hn0)
  rw [hclen] at hidx hmax
  refine ⟨hidx, ?_, ?_, ?_⟩
  · intro j hj
    have := hmax j hj
    rw [test_counts_getD _ _ _ hj, test_counts_getD _ _ _ hidx] at this
    exact this
  · intro j hj
    have := hstrict j hj
    rw [test_counts_getD _ _ _ (lt_trans hj hidx), test_counts_getD _ _ _ hidx] at this
    exact this
  · unfold replace_most_tested_animal
    simp only [hn]
    rw [if_neg (by omega)]
    simp only [if_true, Option.some_inj]
    have hfl : (orig.tests.filter
        (fun row => !(row.getD (max_element_idx (test_counts orig.tests n)) false))).length =
        orig.t - orig.tests.countP
          (fun row => row.getD (max_element_idx (test_counts orig.tests n)) false) := by
      rw [ht, ← List.countP_eq_length_filter]
      have h2 := List.length_eq_countP_add_countP
        (fun row => row.getD (max_element_idx (test_counts orig.tests n)) false) orig.tests
      simp only [decide_not, Bool.decide_coe] at h2
      omega
    rw [hfl]
    simp only [List.eraseIdx_eq_take_drop_succ]

/-- Witness for C4 at a concrete 2-test strategy over 4 items for
`(N, D) = (4, 3)`. -/
theorem replace_most_tested_wolf_spec_witness :
    max_element_idx (test_counts (Strategy.ofTests
      [[true, true, false, false], [true, false, true, false]] false false).tests 4) < 4 :=
  (replace_most_tested_wolf_spec
    (Strategy.ofTests [[true, true, false, false], [true, false, true, false]] false false)
    4 3 (by decide) (by decide) (by decide) (by decide) (by decide) (by decide) (by decide)
    (by decide)).1

/-- C5 counterexample.  The all-negative one-test strategy over five items at
`(N, D) = (5, 2)` satisfies the claimed preconditions `2 ≤ D < N` and
`T < N - 1`, yet its most-tested count is `0`, not at least `2` — the
pigeonhole guarantee needs the strategy to separate singleton wolf sets —
and both column-deletion transforms abort. -/
theorem most_tested_count_counterexample :
    (2 ≤ 2 ∧ 2 < 5 ∧
      (Strategy.ofTests [[false, false, false, false, false]] false false).t < 5 - 1) ∧
    (test_counts (Strategy.ofTests [[false, false, false, false, false]] false false).tests
        5).getD
      (max_element_idx (test_counts
        (Strategy.ofTests [[false, false, false, false, false]] false false).tests 5)) 0 = 0 ∧
    replace_most_tested_animal
      (Strategy.ofTests [[false, false, false, false, false]] false false) true = none ∧
    replace_most_tested_animal
      (Strategy.ofTests [[false, false, false, false, false]] false false) false = none := by
  decide

lemma all_false_of_countP_zero : ∀ (c : List Bool), c.countP (fun b => b) = 0 →
    c = List.replicate c.length false := by
  intro c h
  induction c with
  | nil => rfl
  | cons a l ih =>
    rw [List.countP_cons] at h
    cases a with
    | true => simp at h
    | false =>
      simp at h
      simp only [List.length_cons, List.replicate_succ]
      rw [← ih (by simpa using h)]

lemma single_true_eq : ∀ (c₁ c₂ : List Bool), c₁.length = c₂.length →
    c₁.countP (fun b => b) = 1 → c₂.countP (fun b => b) = 1 →
    c₁.findIdx (fun b => b) = c₂.findIdx (fun b => b) → c₁ = c₂ := by
  intro c₁
  induction c₁ with
  | nil =>
    intro c₂ hlen h1 h2 hidx
    simp at h1
  | cons a l ih =>
    intro c₂ hlen h1 h2 hidx
    cases c₂ with
    | nil => simp at hlen
    | cons b l₂ =>
      cases a <;> cases b
      · -- both heads false
        simp only [List.findIdx_cons, cond_false] at hidx
        rw [List.countP_cons] at h1 h2
        simp at h1 h2
        have hlen' : l.length = l₂.length := by simpa using hlen
        rw [ih l₂ hlen' h1 h2 (by omega)]
      · -- false, true: the first index of a positive differs
        simp only [List.findIdx_cons, cond_false, cond_true] at hidx
        omega
      · -- true, false
        simp only [List.findIdx_cons, cond_false, cond_true] at hidx
        omega
      · -- both heads true: both tails all-negative of equal length
        rw [List.countP_cons] at h1 h2
        simp at h1 h2
        have hlen' : l.length = l₂.length := by simpa using hlen
        rw [all_false_of_countP_zero l (by simpa using h1),
          all_false_of_countP_zero l₂ (by simpa using h2), hlen']

/-- C5 (amended).  On a strategy whose columns separate singleton wolf sets
(every item is tested by some row, and no two items have identical columns
— true of any valid strategy for `D ≥ 1`), the preconditions `2 ≤ D < N`
and `T < N - 1` force the most-tested item's count to be at least `2` (by
pigeonhole); and any strategy reaching the transform with maximal count
below `2` aborts (`assert`), never silently producing a derived strategy. -/
theorem most_tested_count_amended :
    (∀ (tests : List (List Bool)) (n d t : Nat),
      tests ≠ [] → (∀ row ∈ tests, row.length = n) → t = tests.length →
      2 ≤ d → d < n → t < n - 1 →
      (∀ i, i < n → ∃ r ∈ tests, r.getD i false = true) →
      (∀ i, i < n → ∀ j, j < n → i ≠ j →
        tests.map (fun row => row.getD i false) ≠ tests.map (fun row => row.getD j false)) →
      2 ≤ (test_counts tests n).getD (max_element_idx (test_counts tests n)) 0) ∧
    (∀ (orig : Strategy) (b : Bool),
      (test_counts orig.tests ((orig.tests.headD []).length)).getD
        (max_element_idx (test_counts orig.tests ((orig.tests.headD []).length))) 0 < 2 →
      replace_most_tested_animal orig b = none) := by
  constructor
  · intro tests n d t hne hrows ht hd2 hdn htn hnonzero hdistinct
    by_contra hcon
    push_neg at hcon
    have hn0 : 0 < n := by omega
    have hclen : (test_counts tests n).length = n := by
      unfold test_counts
      simp
    obtain ⟨hidx, hmax, _⟩ :=
      max_element_idx_spec (test_counts tests n) (test_counts_ne_nil tests hn0)
    rw [hclen] at hidx hmax
    have hall : ∀ i, i < n → tests.countP (fun row => row.getD i false) ≤ 1 := by
      intro i hi
      have h := hmax i hi
      rw [test_counts_getD _ _ _ hi] at h
      omega
    have hone : ∀ i, i < n →
        (tests.map (fun row => row.getD i false)).countP (fun b => b) = 1 := by
      intro i hi
      rw [List.countP_map]
      have hle := hall i hi
      have hpos : 0 < tests.countP (fun row => row.getD i false) := by
        rw [List.countP_pos_iff]
        exact hnonzero i hi
      have hco : ((fun b => b) ∘ fun (row : List Bool) => row.getD i false) =
          (fun (row : List Bool) => row.getD i false) := rfl
      rw [hco]
      omega
    have hfi : ∀ i, i < n → (tests.map (fun row => row.getD i false)).findIdx (fun b => b) < t := by
      intro i hi
      have hex : ∃ x ∈ tests.map (fun row => row.getD i false), (fun b => b) x = true := by
        obtain ⟨r, hr, hrt⟩ := hnonzero i hi
        exact ⟨r.getD i false, List.mem_map_of_mem _ hr, hrt⟩
      have hlenm : (tests.map (fun row => row.getD i false)).length = t := by
        rw [List.length_map, ht]
      rw [← hlenm]
      exact List.findIdx_lt_length_of_exists hex
    have hinj : Set.InjOn
        (fun i => (tests.map (fun row => row.getD i false)).findIdx (fun b => b))
        ↑(Finset.range n) := by
      intro i hi j hj hij
      simp only [Finset.coe_range, Set.mem_Iio] at hi hj
      by_contra hne2
      exact hdistinct i hi j hj hne2
        (single_true_eq _ _ (by simp) (hone i hi) (hone j hj) hij)
    have hmaps : ∀ a ∈ Finset.range n,
        (fun i => (tests.map (fun row => row.getD i false)).findIdx (fun b => b)) a ∈
          Finset.range t := by
      intro a ha
      rw [Finset.mem_range] at ha ⊢
      exact hfi a ha
    have hcard := Finset.card_le_card_of_injOn _ hmaps hinj
    simp only [Finset.card_range] at hcard
    omega
  · intro orig b hc
    simp only [replace_most_tested_animal]
    rw [if_pos hc]

/-- Witness for C5 (amended): a valid 3-test strategy over five items whose
most-tested count is `2`, and the all-negative strategy aborting. -/
theorem most_tested_count_amended_witness :
    2 ≤ (test_counts [[true, true, false, false, false], [true, false, true, true, false],
        [false, true, true, false, true]] 5).getD
      (max_element_idx (test_counts [[true, true, false, false, false],
        [true, false, true, true, false], [false, true, true, false, true]] 5)) 0 ∧
    replace_most_tested_animal
      (Strategy.ofTests [[false, false, false, false, false]] false false) true = none :=
  ⟨most_tested_count_amended.1
      [[true, true, false, false, false], [true, false, true, true, false],
        [false, true, true, false, true]] 5 2 3
      (by decide) (by decide) (by decide) (by decide) (by decide) (by decide) (by decide)
      (by decide),
    most_tested_count_amended.2
      (Strategy.ofTests [[false, false, false, false, false]] false false) true (by decide)⟩

/-! ## The base-case generator -/

lemma table_find_append (m1 m2 : Table) (k : ND) :
    table_find (m1 ++ m2) k =
      match table_find m1 k with
      | some e => some e
      | none => table_find m2 k := by
  induction m1 with
  | nil => rfl
  | cons p m ih =>
    simp only [List.cons_append, table_find]
    by_cases hp : p.1 = k
    · rw [if_pos hp, if_pos hp]
    · rw [if_neg hp, if_neg hp]
      exact ih

lemma table_find_insert (m : Table) (k : ND) (v : Strategy) (k' : ND) :
    table_find (table_insert m k v) k' =
      if k' = k then some ((table_find m k).getD v) else table_find m k' := by
  unfold table_insert
  cases hf : table_find m k with
  | some e =>
    by_cases hk : k' = k
    · rw [if_pos hk, hk, hf]
      rfl
    · rw [if_neg hk]
  | none =>
    rw [table_find_append]
    by_cases hk : k' = k
    · subst hk
      rw [hf]
      simp [table_find]
    · rw [if_neg hk]
      cases hf' : table_find m k' with
      | some e => rfl
      | none =>
        simp only [table_find]
        rw [if_neg (fun h => hk h.symm)]

lemma easy_inner_other (nn : Nat) : ∀ (j : Nat) (m : Table) (k : ND), k.n ≠ nn →
    table_find ((List.range j).foldl
      (fun m d => table_insert m ⟨nn, d⟩ (easy_strategy nn d)) m) k = table_find m k := by
  intro j
  induction j with
  | zero =>
    intro m k _
    rfl
  | succ j ih =>
    intro m k hk
    rw [List.range_succ, List.foldl_append, List.foldl_cons, List.foldl_nil]
    have hne : k ≠ (⟨nn, j⟩ : ND) := by
      intro h
      apply hk
      rw [h]
    rw [table_find_insert, if_neg hne]
    exact ih m k hk

lemma easy_inner_high (nn : Nat) : ∀ (j : Nat) (m : Table) (d0 : Nat), j ≤ d0 →
    table_find ((List.range j).foldl
      (fun m d => table_insert m ⟨nn, d⟩ (easy_strategy nn d)) m) ⟨nn, d0⟩ =
    table_find m ⟨nn, d0⟩ := by
  intro j
  induction j with
  | zero =>
    intro m d0 _
    rfl
  | succ j ih =>
    intro m d0 hd
    rw [List.range_succ, List.foldl_append, List.foldl_cons, List.foldl_nil]
    have hne : (⟨nn, d0⟩ : ND) ≠ (⟨nn, j⟩ : ND) := by
      intro h
      cases h
      omega
    rw [table_find_insert, if_neg hne]
    exact ih m d0 (by omega)

lemma easy_inner_install (nn : Nat) : ∀ (j : Nat) (m : Table) (d0 : Nat), d0 < j →
    table_find ((List.range j).foldl
      (fun m d => table_insert m ⟨nn, d⟩ (easy_strategy nn d)) m) ⟨nn, d0⟩ =
    some ((table_find m ⟨nn, d0⟩).getD (easy_strategy nn d0)) := by
  intro j
  induction j with
  | zero =>
    intro m d0 hd
    exact absurd hd (Nat.not_lt_zero d0)
  | succ j ih =>
    intro m d0 hd
    rw [List.range_succ, List.foldl_append, List.foldl_cons, List.foldl_nil]
    by_cases hdj : d0 = j
    · subst hdj
      rw [table_find_insert, if_pos rfl, easy_inner_high nn d0 m d0 (le_refl d0)]
    · have hlt : d0 < j := by omega
      have hne : (⟨nn, d0⟩ : ND) ≠ (⟨nn, j⟩ : ND) := by
        intro h
        cases h
        omega
      rw [table_find_insert, if_neg hne]
      exact ih m d0 hlt

lemma easy_outer_high : ∀ (N : Nat) (m : Table) (k : ND), N ≤ k.n →
    table_find ((List.range N).foldl
      (fun m n => (List.range (n + 1)).foldl
        (fun m d => table_insert m ⟨n, d⟩ (easy_strategy n d)) m) m) k = table_find m k := by
  intro N
  induction N with
  | zero =>
    intro m k _
    rfl
  | succ N ih =>
    intro m k hk
    rw [List.range_succ, List.foldl_append, List.foldl_cons, List.foldl_nil]
    rw [easy_inner_other N _ _ k (by omega)]
    exact ih m k (by omega)

lemma easy_outer_install : ∀ (N : Nat) (m : Table) (n0 d0 : Nat), n0 < N → d0 ≤ n0 →
    table_find ((List.range N).foldl
      (fun m n => (List.range (n + 1)).foldl
        (fun m d => table_insert m ⟨n, d⟩ (easy_strategy n d)) m) m) ⟨n0, d0⟩ =
    some ((table_find m ⟨n0, d0⟩).getD (easy_strategy n0 d0)) := by
  intro N
  induction N with
  | zero =>
    intro m n0 d0 hn _
    exact absurd hn (Nat.not_lt_zero n0)
  | succ N ih =>
    intro m n0 d0 hn hd
    rw [List.range_succ, List.foldl_append, List.foldl_cons, List.foldl_nil]
    by_cases hnN : n0 = N
    · subst hnN
      rw [easy_inner_install n0 (n0 + 1) _ d0 (by omega)]
      rw [easy_outer_high n0 m ⟨n0, d0⟩ (le_refl n0)]
    · rw [easy_inner_other N _ _ ⟨n0, d0⟩ (by simpa using hnN)]
      exact ih m n0 d0 (by omega) hd

lemma one_wolf_rows_pow_length : ∀ (fuel n k : Nat), Nat.clog 2 n ≤ k + fuel →
    (one_wolf_rows n (2 ^ k)).length = Nat.clog 2 n - k := by
  intro fuel
  induction fuel with
  | zero =>
    intro n k hf
    have hnk : n ≤ 2 ^ k := (Nat.le_pow_iff_clog_le (by norm_num)).mpr (by omega)
    rw [one_wolf_rows, dif_neg (by omega)]
    simp
    omega
  | succ fuel ih =>
    intro n k hf
    by_cases h : 2 ^ k < n
    · have hk : k < Nat.clog 2 n := (Nat.pow_lt_iff_lt_clog (by norm_num)).mp h
      rw [one_wolf_rows, dif_pos ⟨Nat.pos_pow_of_pos k (by norm_num), h⟩]
      have h2 : 2 * 2 ^ k = 2 ^ (k + 1) := by ring
      rw [List.length_cons, h2, ih n (k + 1) (by omega)]
      omega
    · have hnk : Nat.clog 2 n ≤ k := (Nat.le_pow_iff_clog_le (by norm_num)).mp (by omega)
      rw [one_wolf_rows, dif_neg (by omega)]
      simp
      omega

lemma one_wolf_rows_pow_getD : ∀ (fuel n k r : Nat), Nat.clog 2 n ≤ k + fuel →
    r < Nat.clog 2 n - k →
    (one_wolf_rows n (2 ^ k)).getD r [] =
      (List.range n).map (fun i => decide (i &&& 2 ^ (k + r) ≠ 0)) := by
  intro fuel
  induction fuel with
  | zero =>
    intro n k r hf hr
    omega
  | succ fuel ih =>
    intro n k r hf hr
    have hk : k < Nat.clog 2 n := by omega
    have h : 2 ^ k < n := (Nat.pow_lt_iff_lt_clog (by norm_num)).mpr hk
    rw [one_wolf_rows, dif_pos ⟨Nat.pos_pow_of_pos k (by norm_num), h⟩]
    cases r with
    | zero => rfl
    | succ r =>
      have h2 : 2 * 2 ^ k = 2 ^ (k + 1) := by ring
      simp only [List.getD_cons_succ]
      rw [h2, ih n (k + 1) r (by omega) (by omega)]
      have h3 : k + 1 + r = k + (r + 1) := by omega
      rw [h3]

lemma and_pow_ne_zero (i r : Nat) : (decide (i &&& 2 ^ r ≠ 0)) = i.testBit r := by
  rw [Nat.and_two_pow]
  cases h : i.testBit r
  · simp [h]
  · simp [h]

lemma worst_case_tests_getD (n : Nat) (gb : Bool) (i j : Nat) (hi : i < n - 1) (hj : j < n) :
    (((worst_case_strategy n gb).tests.getD i []).getD j false) = decide (j = i) := by
  unfold worst_case_strategy
  simp only
  rw [getD_map_range _ _ _ _ hi, getD_map_range _ _ _ _ hj]

/-- C3.  `add_easy_solutions` installs, for every `0 ≤ D ≤ N ≤ Nmax` starting
from the empty table: `T = 0` with no tests, proven optimal, when `D = 0`
or `D = N`; the binary-encoding strategy with `T = ceil(log2 N)` tests,
proven optimal, when `D = 1` (row `r` marks item `i` iff bit `r` of `i` is
set); otherwise the one-test-per-item-except-the-last construction with
`T = N - 1`, proven optimal exactly when `D ≥ N/2` and not proven optimal
when `1 < D < N/2`. -/
theorem add_easy_solutions_spec (max_n n d : Nat) (hdn : d ≤ n) (hmax : n ≤ max_n) :
    table_find (add_easy_solutions [] max_n) ⟨n, d⟩ = some (easy_strategy n d) ∧
    ((d = 0 ∨ d = n) →
      (easy_strategy n d).t = 0 ∧ (easy_strategy n d).tests = [] ∧
      (easy_strategy n d).guaranteed_best = true) ∧
    (d = 1 → d ≠ n →
      (easy_strategy n d).t = Nat.clog 2 n ∧
      (easy_strategy n d).guaranteed_best = true ∧
      (easy_strategy n d).tests.length = Nat.clog 2 n ∧
      (∀ r i, r < Nat.clog 2 n → i < n →
        (((easy_strategy n d).tests.getD r []).getD i false) = i.testBit r)) ∧
    (2 ≤ d → d ≠ n → n / 2 ≤ d →
      (easy_strategy n d).t = n - 1 ∧
      (easy_strategy n d).guaranteed_best = true ∧
      (easy_strategy n d).tests.length = n - 1 ∧
      (∀ i j, i < n - 1 → j < n →
        (((easy_strategy n d).tests.getD i []).getD j false) = decide (j = i))) ∧
    (2 ≤ d → d < n / 2 →
      (easy_strategy n d).t = n - 1 ∧
      (easy_strategy n d).guaranteed_best = false ∧
      (easy_strategy n d).tests.length = n - 1 ∧
      (∀ i j, i < n - 1 → j < n →
        (((easy_strategy n d).tests.getD i []).getD j false) = decide (j = i))) := by
  refine ⟨?_, ?_, ?_, ?_, ?_⟩
  · unfold add_easy_solutions
    rw [easy_outer_install (max_n + 1) [] n d (by omega) hdn]
    rfl
  · intro h
    simp [easy_strategy, h, empty_strategy, Strategy.ofTests]
  · intro h1 hne
    have hn2 : 2 ≤ n := by omega
    have hbranch : easy_strategy n d = perfect_strategy_for_one_wolf n := by
      unfold easy_strategy
      rw [if_neg (by omega), if_pos h1]
    rw [hbranch]
    have hpow : (2 : Nat) ^ 0 = 1 := by norm_num
    have hlen : (one_wolf_rows n 1).length = Nat.clog 2 n := by
      rw [← hpow, one_wolf_rows_pow_length (Nat.clog 2 n) n 0 (by omega)]
      omega
    refine ⟨hlen, rfl, hlen, ?_⟩
    intro r i hr hi
    have hrow : (one_wolf_rows n 1).getD r [] =
        (List.range n).map (fun i => decide (i &&& 2 ^ (0 + r) ≠ 0)) := by
      rw [← hpow]
      exact one_wolf_rows_pow_getD (Nat.clog 2 n) n 0 r (by omega) (by omega)
    show ((one_wolf_rows n 1).getD r []).getD i false = i.testBit r
    rw [hrow, getD_map_range _ _ _ _ hi, Nat.zero_add, and_pow_ne_zero]
  · intro h2 hne hhalf
    have hbranch : easy_strategy n d = worst_case_strategy n true := by
      unfold easy_strategy
      rw [if_neg (by omega), if_neg (by omega), if_pos hhalf]
    rw [hbranch]
    refine ⟨rfl, rfl, by simp [worst_case_strategy], ?_⟩
    intro i j hi hj
    exact worst_case_tests_getD n true i j hi hj
  · intro h2 hhalf
    have hd0 : d ≠ 0 := by omega
    have hdnn : d ≠ n := by
      intro h
      subst h
      omega
    have hbranch : easy_strategy n d = worst_case_strategy n false := by
      unfold easy_strategy
      rw [if_neg (by omega), if_neg (by omega), if_neg (by omega)]
    rw [hbranch]
    refine ⟨rfl, rfl, by simp [worst_case_strategy], ?_⟩
    intro i j hi hj
    exact worst_case_tests_getD n false i j hi hj

/-- Witness for C3 at `(N, D) = (9, 1)` inside a table seeded up to `Nmax = 10`. -/
theorem add_easy_solutions_spec_witness :
    table_find (add_easy_solutions [] 10) ⟨9, 1⟩ = some (easy_strategy 9 1) :=
  (add_easy_solutions_spec 10 9 1 (by decide) (by decide)).1

/-! ## Persistence codec: digit and token lemmas -/

lemma natDigitsRev_eq_digits {base : Nat} (hb : 1 < base) :
    ∀ (fuel v : Nat), v ≤ fuel → natDigitsRev base fuel v = Nat.digits base v := by
  intro fuel
  induction fuel with
  | zero =>
    intro v hv
    have : v = 0 := by omega
    subst this
    rw [Nat.digits_zero]
    rfl
  | succ fuel ih =>
    intro v hv
    by_cases h0 : v = 0
    · subst h0
      rw [Nat.digits_zero]
      simp [natDigitsRev]
    · rw [Nat.digits_def' hb (by omega)]
      simp only [natDigitsRev, if_neg h0]
      rw [ih (v / base) ?hle]
      have : v / base < v := Nat.div_lt_self (by omega) hb
      omega

lemma decDigit_roundtrip (v : Nat) (hv : v < 10) :
    decDigitVal (decDigitChar v) = v ∧ isDigitChar (decDigitChar v) = true ∧
    isWsChar (decDigitChar v) = false ∧ (decDigitChar v = '\n') = False := by
  interval_cases v <;> exact ⟨by decide, by decide, by decide, by decide⟩

lemma hexDigit_roundtrip (v : Nat) (hv : v < 16) :
    hexDigitVal (hexDigitChar v) = v ∧ isHexDigitChar (hexDigitChar v) = true ∧
    isWsChar (hexDigitChar v) = false := by
  interval_cases v <;> exact ⟨by decide, by decide, by decide⟩

lemma parse_rev_fold (B : Nat) (toChar : Nat → Char) (toVal : Char → Nat) :
    ∀ (ds : List Nat), (∀ d ∈ ds, toVal (toChar d) = d) →
    (ds.reverse.map toChar).foldl (fun a c => B * a + toVal c) 0 = Nat.ofDigits B ds := by
  intro ds
  induction ds with
  | nil =>
    intro _
    simp [Nat.ofDigits]
  | cons d ds ih =>
    intro h
    rw [List.reverse_cons, List.map_append, List.foldl_append]
    rw [ih (fun x hx => h x (List.mem_cons_of_mem d hx))]
    simp only [List.map_cons, List.map_nil, List.foldl_cons, List.foldl_nil]
    rw [h d (List.mem_cons_self d ds), Nat.ofDigits_cons]
    ring

lemma parseDecDigits_natToDecChars (v : Nat) : parseDecDigits (natToDecChars v) = v := by
  unfold natToDecChars
  by_cases h0 : v = 0
  · subst h0
    decide
  · rw [if_neg h0, natDigitsRev_eq_digits (by norm_num) v v (le_refl v)]
    unfold parseDecDigits
    rw [parse_rev_fold 10 decDigitChar decDigitVal (Nat.digits 10 v) ?hd]
    · exact Nat.ofDigits_digits 10 v
    · intro d hd
      exact (decDigit_roundtrip d (Nat.digits_lt_base (by norm_num) hd)).1

lemma parseHexDigits_natToHexChars (v : Nat) : parseHexDigits (natToHexChars v) = v := by
  unfold natToHexChars
  by_cases h0 : v = 0
  · subst h0
    decide
  · rw [if_neg h0, natDigitsRev_eq_digits (by norm_num) v v (le_refl v)]
    unfold parseHexDigits
    rw [parse_rev_fold 16 hexDigitChar hexDigitVal (Nat.digits 16 v) ?hd]
    · exact Nat.ofDigits_digits 16 v
    · intro d hd
      exact (hexDigit_roundtrip d (Nat.digits_lt_base (by norm_num) hd)).1

lemma natToDecChars_digits (v : Nat) : ∀ c ∈ natToDecChars v, isDigitChar c = true := by
  unfold natToDecChars
  by_cases h0 : v = 0
  · subst h0
    intro c hc
    simp at hc
    subst hc
    decide
  · rw [if_neg h0, natDigitsRev_eq_digits (by norm_num) v v (le_refl v)]
    intro c hc
    rw [List.mem_map] at hc
    obtain ⟨d, hd, rfl⟩ := hc
    rw [List.mem_reverse] at hd
    exact (decDigit_roundtrip d (Nat.digits_lt_base (by norm_num) hd)).2.1

lemma natToHexChars_spec (v : Nat) : natToHexChars v ≠ [] ∧
    ∀ c ∈ natToHexChars v, isHexDigitChar c = true ∧ isWsChar c = false := by
  unfold natToHexChars
  by_cases h0 : v = 0
  · subst h0
    refine ⟨by decide, ?_⟩
    intro c hc
    simp at hc
    subst hc
    exact ⟨by decide, by decide⟩
  · rw [if_neg h0, natDigitsRev_eq_digits (by norm_num) v v (le_refl v)]
    constructor
    · simp only [ne_eq, List.map_eq_nil_iff, List.reverse_eq_nil_iff]
      exact Nat.digits_ne_nil_iff_ne_zero.mpr h0
    · intro c hc
      rw [List.mem_map] at hc
      obtain ⟨d, hd, rfl⟩ := hc
      rw [List.mem_reverse] at hd
      have h := hexDigit_roundtrip d (Nat.digits_lt_base (by norm_num) hd)
      exact ⟨h.2.1, h.2.2⟩

lemma isDigitChar_ne_newline {c : Char} (h : isDigitChar c = true) : c ≠ '\n' := by
  intro hc
  subst hc
  exact absurd h (by decide)

lemma takeWhile_all_append (p : Char → Bool) :
    ∀ (xs ys : List Char), (∀ c ∈ xs, p c = true) →
    (∀ c, ys.head? = some c → p c = false) →
    (xs ++ ys).takeWhile p = xs ∧ (xs ++ ys).dropWhile p = ys := by
  intro xs
  induction xs with
  | nil =>
    intro ys _ hys
    simp only [List.nil_append]
    cases ys with
    | nil => exact ⟨rfl, rfl⟩
    | cons y ys =>
      have hy := hys y rfl
      rw [List.takeWhile_cons, List.dropWhile_cons]
      rw [hy]
      simp
  | cons x xs ih =>
    intro ys hxs hys
    have hx : p x = true := hxs x (List.mem_cons_self x xs)
    obtain ⟨h1, h2⟩ := ih ys (fun c hc => hxs c (List.mem_cons_of_mem x hc)) hys
    rw [List.cons_append, List.takeWhile_cons, List.dropWhile_cons, hx]
    simp only [if_true]
    exact ⟨by rw [h1], by rw [h2]⟩

lemma parseDecToken_encode (v : Nat) (rest : List Char)
    (hrest : ∀ c, rest.head? = some c → isDigitChar c = false) :
    parseDecToken (natToDecChars v ++ rest) = some (v, rest) := by
  unfold parseDecToken
  obtain ⟨h1, h2⟩ := takeWhile_all_append isDigitChar (natToDecChars v) rest
    (natToDecChars_digits v) hrest
  rw [h1, h2]
  have hne : natToDecChars v ≠ [] := by
    unfold natToDecChars
    split
    · simp
    · simp only [ne_eq, List.map_eq_nil_iff, List.reverse_eq_nil_iff]
      rw [natDigitsRev_eq_digits (by norm_num) v v (le_refl v)]
      exact Nat.digits_ne_nil_iff_ne_zero.mpr (by assumption)
  rw [if_neg hne, parseDecDigits_natToDecChars]

lemma expectChars_append (lit rest : List Char) : expectChars (lit ++ rest) lit = some rest := by
  induction lit with
  | nil =>
    cases rest with
    | nil => rfl
    | cons c cs => rfl
  | cons c lit ih =>
    simp only [List.cons_append, expectChars, if_pos rfl]
    exact ih

lemma parse_header_encode (n d t : Nat) (gb : Bool) :
    parse_header (header_chars n d t gb) = some (n, d, t, if gb then 1 else 0) := by
  have hassoc : header_chars n d t gb =
      "N=".data ++ (natToDecChars n ++ (" D=".data ++ (natToDecChars d ++ (" T=".data ++
        (natToDecChars t ++ (" guaranteed_best=".data ++ [if gb then '1' else '0'])))))) := by
    unfold header_chars
    simp [List.append_assoc]
  rw [hassoc]
  set s4 : List Char := " guaranteed_best=".data ++ [if gb then '1' else '0'] with hs4
  set s3 : List Char := " T=".data ++ (natToDecChars t ++ s4) with hs3
  set s2 : List Char := " D=".data ++ (natToDecChars d ++ s3) with hs2
  have e1 := expectChars_append "N=".data (natToDecChars n ++ s2)
  have e2 : parseDecToken (natToDecChars n ++ s2) = some (n, s2) := by
    apply parseDecToken_encode
    intro c hc
    rw [hs2] at hc
    rw [show ((" D=".data ++ (natToDecChars d ++ s3)).head?) = some ' ' from rfl] at hc
    cases hc
    decide
  have e3 : expectChars s2 " D=".data = some (natToDecChars d ++ s3) := by
    rw [hs2]
    exact expectChars_append _ _
  have e4 : parseDecToken (natToDecChars d ++ s3) = some (d, s3) := by
    apply parseDecToken_encode
    intro c hc
    rw [hs3] at hc
    rw [show ((" T=".data ++ (natToDecChars t ++ s4)).head?) = some ' ' from rfl] at hc
    cases hc
    decide
  have e5 : expectChars s3 " T=".data = some (natToDecChars t ++ s4) := by
    rw [hs3]
    exact expectChars_append _ _
  have e6 : parseDecToken (natToDecChars t ++ s4) = some (t, s4) := by
    apply parseDecToken_encode
    intro c hc
    rw [hs4] at hc
    rw [show ((" guaranteed_best=".data ++ [if gb then '1' else '0']).head?) = some ' '
      from rfl] at hc
    cases hc
    decide
  have e7 : expectChars s4 " guaranteed_best=".data = some [if gb then '1' else '0'] := by
    rw [hs4]
    exact expectChars_append _ _
  have e8 : parseDecToken [if gb then '1' else '0'] = some (if gb then 1 else 0, []) := by
    cases gb
    · decide
    · decide
  simp only [parse_header, Option.bind_eq_bind, e1, Option.some_bind, e2, e3, e4, e5, e6, e7, e8]

lemma get_line_append (line rest : List Char) (hline : ∀ c ∈ line, c ≠ '\n') :
    get_line (line ++ '\n' :: rest) = (line, rest) := by
  unfold get_line
  obtain ⟨h1, h2⟩ := takeWhile_all_append (fun c => decide (c ≠ '\n')) line ('\n' :: rest)
    (fun c hc => decide_eq_true (hline c hc))
    (fun c hc => by
      cases hc
      decide)
  rw [h1, h2]
  rfl

lemma header_chars_ne_newline (n d t : Nat) (gb : Bool) :
    ∀ c ∈ header_chars n d t gb, c ≠ '\n' := by
  intro c hc
  simp only [header_chars, List.mem_append, or_assoc] at hc
  rcases hc with h | h | h | h | h | h | h | h
  · fin_cases h <;> decide
  · exact isDigitChar_ne_newline (natToDecChars_digits _ c h)
  · fin_cases h <;> decide
  · exact isDigitChar_ne_newline (natToDecChars_digits _ c h)
  · fin_cases h <;> decide
  · exact isDigitChar_ne_newline (natToDecChars_digits _ c h)
  · fin_cases h <;> decide
  · cases gb <;> fin_cases h <;> decide

lemma row_chars_decode (row : List Bool) :
    (row_chars row).map (fun c => decide (c = '1')) = row := by
  induction row with
  | nil => rfl
  | cons b bs ih =>
    simp only [row_chars, List.map_cons] at ih ⊢
    rw [ih]
    cases b
    · rfl
    · rfl

lemma row_chars_ne_newline (row : List Bool) : ∀ c ∈ row_chars row, c ≠ '\n' := by
  intro c hc
  unfold row_chars at hc
  rw [List.mem_map] at hc
  obtain ⟨b, _, rfl⟩ := hc
  cases b
  · decide
  · decide

lemma read_plain_rows_encode : ∀ (rows : List (List Bool)) (n : Nat),
    (∀ row ∈ rows, row.length = n) →
    read_plain_rows n rows.length ((rows.map (fun row => row_chars row ++ ['\n'])).flatten) =
      some rows := by
  intro rows
  induction rows with
  | nil =>
    intro n _
    rfl
  | cons row rows ih =>
    intro n hlen
    simp only [List.map_cons, List.flatten_cons, List.length_cons]
    have hshape : (row_chars row ++ ['\n']) ++
        ((rows.map (fun row => row_chars row ++ ['\n'])).flatten) =
        row_chars row ++ '\n' :: ((rows.map (fun row => row_chars row ++ ['\n'])).flatten) := by
      rw [List.append_assoc]
      rfl
    rw [hshape]
    simp only [read_plain_rows]
    rw [get_line_append _ _ (row_chars_ne_newline row)]
    have hrl : (row_chars row).length = n := by
      rw [row_chars, List.length_map]
      exact hlen row (List.mem_cons_self row rows)
    simp only [hrl, if_pos rfl]
    rw [ih n (fun r hr => hlen r (List.mem_cons_of_mem row hr))]
    rw [row_chars_decode]
    simp

/-! ## Persistence codec: packed format lemmas -/

lemma boolsToNat_lt (bs : List Bool) : boolsToNat bs < 2 ^ bs.length := by
  induction bs with
  | nil => decide
  | cons b bs ih =>
    simp only [boolsToNat, List.length_cons, pow_succ]
    cases b <;> simp <;> omega

lemma bits_to_col_inv : ∀ (t v : Nat), v < 2 ^ t →
    boolsToNat (bits_to_col t v) = v ∧ (bits_to_col t v).length = t := by
  intro t
  induction t with
  | zero =>
    intro v hv
    have : v = 0 := by omega
    subst this
    exact ⟨rfl, rfl⟩
  | succ t ih =>
    intro v hv
    have hdiv : v / 2 < 2 ^ t := by
      rw [pow_succ] at hv
      omega
    obtain ⟨ih1, ih2⟩ := ih (v / 2) hdiv
    constructor
    · simp only [bits_to_col, boolsToNat, ih1]
      by_cases h : v % 2 = 1
      · rw [if_pos (by simpa using h)]
        omega
      · rw [if_neg (by simpa using h)]
        omega
    · simp only [bits_to_col, List.length_cons, ih2]

lemma foldl_colbits : ∀ (col : List Bool) (a : Nat),
    a * 2 ^ col.length + boolsToNat col < 2 ^ 64 →
    col.reverse.foldl (fun bits b => (2 * bits + (if b then 1 else 0)) % 2 ^ 64) a =
      a * 2 ^ col.length + boolsToNat col := by
  intro col
  induction col with
  | nil =>
    intro a _
    simp [boolsToNat]
  | cons b col ih =>
    intro a hbound
    have hsplit : a * 2 ^ (b :: col).length + boolsToNat (b :: col) =
        2 * (a * 2 ^ col.length + boolsToNat col) + (if b then 1 else 0) := by
      simp only [List.length_cons, boolsToNat, pow_succ]
      ring
    rw [hsplit] at hbound
    rw [List.reverse_cons, List.foldl_append, List.foldl_cons, List.foldl_nil]
    rw [ih a (by omega)]
    rw [hsplit]
    exact Nat.mod_eq_of_lt (by omega)

lemma column_bits_eq (tests : List (List Bool)) (t c : Nat) (ht : t ≤ 64) :
    column_bits tests t c =
      boolsToNat ((List.range t).map (fun r => (tests.getD r []).getD c false)) := by
  unfold column_bits
  have hmap : (List.range t).reverse.foldl
      (fun bits r => (2 * bits + (if (tests.getD r []).getD c false then 1 else 0)) % 2 ^ 64) 0 =
      (((List.range t).map (fun r => (tests.getD r []).getD c false)).reverse).foldl
        (fun bits b => (2 * bits + (if b then 1 else 0)) % 2 ^ 64) 0 := by
    rw [← List.map_reverse, List.foldl_map]
  rw [hmap]
  have hlen : ((List.range t).map (fun r => (tests.getD r []).getD c false)).length = t := by
    simp
  have hlt := boolsToNat_lt ((List.range t).map (fun r => (tests.getD r []).getD c false))
  rw [hlen] at hlt
  have hbound : 2 ^ t ≤ 2 ^ 64 := Nat.pow_le_pow_right (by norm_num) ht
  rw [foldl_colbits _ 0 (by omega)]
  omega

lemma map_getD_range {α : Type} (row : List α) (dv : α) :
    (List.range row.length).map (fun c => row.getD c dv) = row := by
  induction row with
  | nil => rfl
  | cons b row ih =>
    rw [List.length_cons, List.range_succ_eq_map, List.map_cons, List.map_map]
    rw [List.getD_cons_zero]
    have : ((fun c => (b :: row).getD c dv) ∘ Nat.succ) = (fun c => row.getD c dv) := by
      funext c
      simp [List.getD_cons_succ]
    rw [this, ih]

lemma tokenize_core_cons_ws (c : Char) (s : List Char) (hc : isWsChar c = true) :
    tokenize_core (c :: s) = [] :: tokenize_core s := by
  unfold tokenize_core
  rw [List.foldr_cons, if_pos hc]

lemma tokenize_core_tok_prepend : ∀ (tok cs : List Char) (X : List (List Char)),
    (∀ c ∈ tok, isWsChar c = false) → tokenize_core cs = [] :: X →
    tokenize_core (tok ++ cs) = tok :: X := by
  intro tok
  induction tok with
  | nil =>
    intro cs X _ h
    simpa using h
  | cons c tok ih =>
    intro cs X hws h
    have hi := ih cs X (fun x hx => hws x (List.mem_cons_of_mem c hx)) h
    unfold tokenize_core at hi ⊢
    rw [List.cons_append, List.foldr_cons, hi]
    rw [if_neg (by simp [hws c (List.mem_cons_self c tok)])]

lemma tokenize_core_wrap : ∀ (toks : List (List Char)) (ww : Nat),
    (∀ tok ∈ toks, tok ≠ [] ∧ ∀ c ∈ tok, isWsChar c = false) →
    tokenize_core (wrap_tokens ww toks ++ ['\n']) = [] :: toks := by
  intro toks
  induction toks with
  | nil =>
    intro ww _
    rfl
  | cons tok toks ih =>
    intro ww h
    have htok := h tok (List.mem_cons_self tok toks)
    have hrest : ∀ ww', tokenize_core (wrap_tokens ww' toks ++ ['\n']) = [] :: toks :=
      fun ww' => ih ww' (fun x hx => h x (List.mem_cons_of_mem tok hx))
    unfold wrap_tokens
    by_cases hb : ww + 1 + tok.length > 75
    · rw [if_pos hb]
      simp only [List.cons_append, List.append_assoc]
      rw [tokenize_core_cons_ws _ _ (by decide)]
      rw [tokenize_core_tok_prepend tok _ toks htok.2 (hrest tok.length)]
    · rw [if_neg hb]
      simp only [List.cons_append, List.append_assoc]
      rw [tokenize_core_cons_ws _ _ (by decide)]
      rw [tokenize_core_tok_prepend tok _ toks htok.2 (hrest (ww + 1 + tok.length))]

lemma tokenize_wrap (marker : List Char) (toks : List (List Char)) (ww : Nat)
    (hmws : ∀ c ∈ marker, isWsChar c = false) (hm : marker ≠ [])
    (h : ∀ tok ∈ toks, tok ≠ [] ∧ ∀ c ∈ tok, isWsChar c = false) :
    tokenize (marker ++ (wrap_tokens ww toks ++ ['\n'])) = marker :: toks := by
  unfold tokenize
  rw [tokenize_core_tok_prepend marker _ toks hmws (tokenize_core_wrap toks ww h)]
  rw [List.filter_eq_self.mpr]
  intro a ha
  rcases List.mem_cons.mp ha with h1 | h1
  · subst h1
    exact decide_eq_true hm
  · exact decide_eq_true (h a h1).1

lemma takeWhile_all (p : Char → Bool) (xs : List Char) (hxs : ∀ c ∈ xs, p c = true) :
    xs.takeWhile p = xs := by
  have h := (takeWhile_all_append p xs [] hxs (fun c hc => by cases hc)).1
  rwa [List.append_nil] at h

lemma sscanf_llx_encode (v : Nat) (hv : v < 2 ^ 64) :
    sscanf_llx (natToHexChars v) = some v := by
  unfold sscanf_llx
  have htake : (natToHexChars v).takeWhile isHexDigitChar = natToHexChars v :=
    takeWhile_all _ _ (fun c hc => ((natToHexChars_spec v).2 c hc).1)
  rw [htake, if_neg (natToHexChars_spec v).1, parseHexDigits_natToHexChars]
  congr 1
  omega

lemma decode_emathgroup_columns_encode : ∀ (vals : List Nat) (t : Nat), t < 64 →
    (∀ v ∈ vals, v < 2 ^ t) →
    decode_emathgroup_columns t (vals.map natToHexChars) =
      some (vals.map (bits_to_col t)) := by
  intro vals
  induction vals with
  | nil =>
    intro t _ _
    rfl
  | cons v vals ih =>
    intro t ht hv
    have hvt := hv v (List.mem_cons_self v vals)
    have hpow : (2:Nat) ^ t < 2 ^ 64 := Nat.pow_lt_pow_right (by norm_num) ht
    simp only [List.map_cons, decode_emathgroup_columns]
    rw [sscanf_llx_encode v (by omega)]
    simp only [Nat.mod_eq_of_lt hpow]
    rw [if_pos hvt]
    rw [ih t ht (fun x hx => hv x (List.mem_cons_of_mem v hx))]

lemma getD_row_mem (tests : List (List Bool)) (r : Nat) (hr : r < tests.length) :
    tests.getD r [] ∈ tests := by
  rw [List.getD_eq_getElem?_getD, List.getElem?_eq_getElem hr]
  exact List.getElem_mem hr

lemma decode_record_plain (n d : Nat) (s : Strategy)
    (ht : s.t = s.tests.length) (hrows : ∀ row ∈ s.tests, row.length = n) :
    decode_record (encode_plain_record n d s) =
      some (n, d, Strategy.ofTests s.tests s.guaranteed_best true) := by
  have hgl : get_line (header_chars n d s.t s.guaranteed_best ++ ['\n'] ++
      (s.tests.map (fun row => row_chars row ++ ['\n'])).flatten) =
      (header_chars n d s.t s.guaranteed_best,
        (s.tests.map (fun row => row_chars row ++ ['\n'])).flatten) := by
    rw [List.append_assoc]
    exact get_line_append _ _ (header_chars_ne_newline n d s.t s.guaranteed_best)
  unfold decode_record encode_plain_record
  simp only [hgl, parse_header_encode]
  split
  · rename_i heq
    exfalso
    cases hts : s.tests with
    | nil =>
      rw [hts] at heq
      simp at heq
    | cons row rows =>
      rw [hts] at heq
      simp only [List.map_cons, List.flatten_cons] at heq
      cases row with
      | nil =>
        simp [row_chars] at heq
      | cons b r' =>
        cases b
        · simp [row_chars] at heq
        · simp [row_chars] at heq
  · rw [ht, read_plain_rows_encode s.tests n hrows]
    cases hgb : s.guaranteed_best
    · simp [Strategy.ofTests, ← ht]
    · simp [Strategy.ofTests, ← ht]


lemma bits_to_col_boolsToNat : ∀ (col : List Bool),
    bits_to_col col.length (boolsToNat col) = col := by
  intro col
  induction col with
  | nil => rfl
  | cons b bs ih =>
    simp only [boolsToNat, List.length_cons, bits_to_col]
    have hmod : ((if b then 1 else 0) + 2 * boolsToNat bs) % 2 = (if b then 1 else 0) := by
      cases b <;> simp
    have hdiv : ((if b then 1 else 0) + 2 * boolsToNat bs) / 2 = boolsToNat bs := by
      cases b
      · simp
      · simp
        omega
    simp only [hmod, hdiv, ih]
    cases b <;> rfl

lemma decode_record_emathgroup (n d : Nat) (s : Strategy)
    (ht : s.t = s.tests.length) (hrows : ∀ row ∈ s.tests, row.length = n) (h64 : s.t < 64) :
    decode_record (encode_emathgroup_record n d s) =
      some (n, d, Strategy.ofTests s.tests s.guaranteed_best true) := by
  have hshape : encode_emathgroup_record n d s =
      header_chars n d s.t s.guaranteed_best ++ '\n' ::
        ("emathgroup".data ++
          (wrap_tokens 10 ((List.range n).map
            (fun c => natToHexChars (column_bits s.tests s.t c))) ++ ['\n'])) := by
    unfold encode_emathgroup_record
    simp [List.append_assoc]
  have hgl : get_line (header_chars n d s.t s.guaranteed_best ++ '\n' ::
      ("emathgroup".data ++
        (wrap_tokens 10 ((List.range n).map
          (fun c => natToHexChars (column_bits s.tests s.t c))) ++ ['\n']))) =
      (header_chars n d s.t s.guaranteed_best,
        "emathgroup".data ++
          (wrap_tokens 10 ((List.range n).map
            (fun c => natToHexChars (column_bits s.tests s.t c))) ++ ['\n'])) :=
    get_line_append _ _ (header_chars_ne_newline n d s.t s.guaranteed_best)
  have hhead : ("emathgroup".data ++
      (wrap_tokens 10 ((List.range n).map
        (fun c => natToHexChars (column_bits s.tests s.t c))) ++ ['\n'])).head? = some 'e' := rfl
  have htokgood : ∀ tok ∈ (List.range n).map
      (fun c => natToHexChars (column_bits s.tests s.t c)),
      tok ≠ [] ∧ ∀ c ∈ tok, isWsChar c = false := by
    intro tok htk
    rw [List.mem_map] at htk
    obtain ⟨c, _, rfl⟩ := htk
    exact ⟨(natToHexChars_spec _).1, fun x hx => ((natToHexChars_spec _).2 x hx).2⟩
  have htkn := tokenize_wrap "emathgroup".data
    ((List.range n).map (fun c => natToHexChars (column_bits s.tests s.t c))) 10
    (by decide) (by decide) htokgood
  have hlen : ((List.range n).map
      (fun c => natToHexChars (column_bits s.tests s.t c))).length = n := by
    simp
  have hvalbound : ∀ v ∈ (List.range n).map (fun c => column_bits s.tests s.t c),
      v < 2 ^ s.t := by
    intro v hv
    rw [List.mem_map] at hv
    obtain ⟨c, _, rfl⟩ := hv
    rw [column_bits_eq s.tests s.t c (by omega)]
    have h := boolsToNat_lt ((List.range s.t).map (fun r => (s.tests.getD r []).getD c false))
    simpa using h
  have hmm : (List.range n).map (fun c => natToHexChars (column_bits s.tests s.t c)) =
      ((List.range n).map (fun c => column_bits s.tests s.t c)).map natToHexChars := by
    rw [List.map_map]
    rfl
  have hdec : decode_emathgroup_columns s.t
      ((List.range n).map (fun c => natToHexChars (column_bits s.tests s.t c))) =
      some (((List.range n).map (fun c => column_bits s.tests s.t c)).map (bits_to_col s.t)) := by
    rw [hmm]
    exact decode_emathgroup_columns_encode _ s.t h64 hvalbound
  have hcols : ((List.range n).map (fun c => column_bits s.tests s.t c)).map (bits_to_col s.t) =
      (List.range n).map (fun c =>
        (List.range s.t).map (fun r => (s.tests.getD r []).getD c false)) := by
    rw [List.map_map]
    apply List.map_congr_left
    intro c _
    show bits_to_col s.t (column_bits s.tests s.t c) =
      (List.range s.t).map (fun r => (s.tests.getD r []).getD c false)
    rw [column_bits_eq s.tests s.t c (by omega)]
    have hl : ((List.range s.t).map (fun r => (s.tests.getD r []).getD c false)).length = s.t := by
      simp
    have hbb := bits_to_col_boolsToNat
      ((List.range s.t).map (fun r => (s.tests.getD r []).getD c false))
    rw [hl] at hbb
    exact hbb
  have hct : cols_to_tests s.t ((List.range n).map (fun c =>
      (List.range s.t).map (fun r => (s.tests.getD r []).getD c false))) = s.tests := by
    unfold cols_to_tests
    have hrow : ∀ r ∈ List.range s.t,
        ((List.range n).map (fun c => (List.range s.t).map
          (fun rr => (s.tests.getD rr []).getD c false))).map (fun col => col.getD r false) =
        s.tests.getD r [] := by
      intro r hrm
      have hr : r < s.t := List.mem_range.mp hrm
      rw [List.map_map]
      have h1 : ∀ c ∈ List.range n,
          ((fun col => col.getD r false) ∘ (fun c => (List.range s.t).map
            (fun rr => (s.tests.getD rr []).getD c false))) c =
          (fun c => (s.tests.getD r []).getD c false) c := by
        intro c _
        show ((List.range s.t).map (fun rr => (s.tests.getD rr []).getD c false)).getD r false =
          (s.tests.getD r []).getD c false
        exact getD_map_range _ _ _ _ hr
      rw [List.map_congr_left h1]
      have hrl : (s.tests.getD r []).length = n :=
        hrows _ (getD_row_mem s.tests r (by omega))
      rw [← hrl]
      exact map_getD_range _ _
    rw [List.map_congr_left hrow]
    have hfin : (List.range s.tests.length).map (fun r => s.tests.getD r []) = s.tests :=
      map_getD_range s.tests []
    rw [ht, hfin]
  rw [hshape]
  unfold decode_record
  simp only [hgl, parse_header_encode, hhead, htkn]
  rw [if_pos ⟨trivial, le_of_eq hlen.symm⟩]
  have htake : ((List.range n).map (fun c => natToHexChars (column_bits s.tests s.t c))).take n =
      (List.range n).map (fun c => natToHexChars (column_bits s.tests s.t c)) := by
    have h := List.take_length ((List.range n).map
      (fun c => natToHexChars (column_bits s.tests s.t c)))
    rw [hlen] at h
    exact h
  rw [htake]
  rw [hdec]
  simp only [hcols, hct]
  cases hgb : s.guaranteed_best
  · simp [Strategy.ofTests, ← ht]
  · simp [Strategy.ofTests, ← ht]

set_option maxRecDepth 40000 in
/-- C7 counterexample.  A 65-test strategy over one item: the packed encoder
accumulates the column in a 64-bit word (`unsigned long long`), so bit 64
is lost modulo `2^64` and decoding cannot reproduce the matrix (here the
capacity check even rejects the record outright). -/
theorem persistence_roundtrip_counterexample :
    ((Strategy.ofTests ((List.range 65).map (fun r => [decide (r = 64)])) false false).t =
      (Strategy.ofTests ((List.range 65).map (fun r => [decide (r = 64)])) false
        false).tests.length) ∧
    (∀ row ∈ (Strategy.ofTests ((List.range 65).map (fun r => [decide (r = 64)])) false
        false).tests, row.length = 1) ∧
    decode_record (encode_emathgroup_record 1 2
      (Strategy.ofTests ((List.range 65).map (fun r => [decide (r = 64)])) false false)) =
      none := by
  decide

/-- C7 (amended).  Encoding a well-formed Strategy and decoding the result
reproduces the identical test matrix, test count and guaranteed-optimal
flag: via the plain grid format for every `N` and `T`, and via the packed
hex format for every `T < 64` (each packed column is one 64-bit word). -/
theorem persistence_roundtrip_amended (n d : Nat) (s : Strategy)
    (ht : s.t = s.tests.length) (hrows : ∀ row ∈ s.tests, row.length = n) :
    (∃ s1, decode_record (encode_plain_record n d s) = some (n, d, s1) ∧
      s1.tests = s.tests ∧ s1.t = s.t ∧ s1.guaranteed_best = s.guaranteed_best) ∧
    (s.t < 64 →
      ∃ s2, decode_record (encode_emathgroup_record n d s) = some (n, d, s2) ∧
        s2.tests = s.tests ∧ s2.t = s.t ∧ s2.guaranteed_best = s.guaranteed_best) := by
  constructor
  · exact ⟨Strategy.ofTests s.tests s.guaranteed_best true,
      decode_record_plain n d s ht hrows, rfl, ht.symm, rfl⟩
  · intro h64
    exact ⟨Strategy.ofTests s.tests s.guaranteed_best true,
      decode_record_emathgroup n d s ht hrows h64, rfl, ht.symm, rfl⟩

/-- Witness for C7 (amended) at a concrete 2-test strategy over two items. -/
theorem persistence_roundtrip_amended_witness :
    ∃ s1, decode_record (encode_plain_record 2 1
        (Strategy.ofTests [[true, false], [false, true]] true false)) = some (2, 1, s1) ∧
      s1.tests = (Strategy.ofTests [[true, false], [false, true]] true false).tests ∧
      s1.t = (Strategy.ofTests [[true, false], [false, true]] true false).t ∧
      s1.guaranteed_best =
        (Strategy.ofTests [[true, false], [false, true]] true false).guaranteed_best :=
  (persistence_roundtrip_amended 2 1
    (Strategy.ofTests [[true, false], [false, true]] true false) rfl (by decide)).1

/-- C8 counterexample.  At `T = 64` the capacity check compares against
`1uLL << 64`, which overflows the 64-bit word (undefined behaviour in the
source, `2^64 % 2^64 = 0` in the model): even the in-range column value `0`
is rejected, so the claimed success for every value in `[0, 2^T)` fails. -/
theorem packed_capacity_counterexample :
    (0 : Nat) < 2 ^ 64 ∧ decode_emathgroup_columns 64 [['0']] = none := by
  decide

/-- C8 (amended).  Decoding a packed-hex record fails whenever some item's
column value is at least `2^T` (for any `T`); and for headers declaring
`T < 64` tests it succeeds on every list of column values below `2^T`,
reconstructing each column exactly (the decoded column is the unique
length-`T` bit string with that value). -/
theorem packed_capacity_amended :
    (∀ (t : Nat) (toks : List (List Char)) (tok : List Char) (v : Nat),
      tok ∈ toks → sscanf_llx tok = some v → 2 ^ t ≤ v →
      decode_emathgroup_columns t toks = none) ∧
    (∀ (t : Nat) (vals : List Nat), t < 64 → (∀ v ∈ vals, v < 2 ^ t) →
      decode_emathgroup_columns t (vals.map natToHexChars) =
        some (vals.map (bits_to_col t)) ∧
      ∀ v ∈ vals, boolsToNat (bits_to_col t v) = v ∧ (bits_to_col t v).length = t) := by
  constructor
  · intro t toks
    induction toks with
    | nil =>
      intro tok v hmem _ _
      simp at hmem
    | cons tk toks ih =>
      intro tok v hmem hs hge
      rcases List.mem_cons.mp hmem with h1 | h1
      · subst h1
        simp only [decode_emathgroup_columns, hs]
        rw [if_neg (by have := Nat.mod_le (2 ^ t) (2 ^ 64); omega)]
      · simp only [decode_emathgroup_columns]
        cases hs0 : sscanf_llx tk with
        | none => rfl
        | some b =>
          simp only [ih tok v h1 hs hge]
          rw [ite_self]
  · intro t vals h64 hv
    refine ⟨decode_emathgroup_columns_encode vals t h64 hv, ?_⟩
    intro v hvm
    exact bits_to_col_inv t v (hv v hvm)

/-- Witness for C8 (amended): two in-range values decode at `T = 4`, and an
out-of-range token (`0x20 ≥ 2^4`) is rejected. -/
theorem packed_capacity_amended_witness :
    decode_emathgroup_columns 4 ([10, 15].map natToHexChars) =
      some ([10, 15].map (bits_to_col 4)) ∧
    decode_emathgroup_columns 4 [['2', '0']] = none :=
  ⟨(packed_capacity_amended.2 4 [10, 15] (by decide) (by decide)).1,
    packed_capacity_amended.1 4 [['2', '0']] ['2', '0'] 32 (by decide) (by decide) (by decide)⟩
